import Mathlib

/-!
Shallow embedding of the SMBOverSocksBrowser networking/concurrency core
(`SMBOverSocksBrowser.py`, `scanner_process.py`) and proofs about it.

The external collaborators (the SMB client library, `os.path`, Python's
string methods and `json` module) are modelled at their interface boundary
as executable Lean functions over an explicit filesystem tree / character
lists.  Repository functions (`_fetch_path_contents`,
`_build_cache_parallel`, `start_background_caching`, `do_search`,
`check_smb_host`'s share-classification loop, `handle_scanner_output`)
are translated statement by statement from the Python source.
-/

namespace SMBModel

/-! ## Character/string utilities (models of Python string primitives)

Lean `String` is a structure holding a `List Char`, so the Python string
operations the code relies on are modelled as executable functions on
`List Char` and wrapped with `String.mk`/`String.data`. -/

/-- Split a character list at every occurrence of `sep`; the result is the
list of (possibly empty) segments and always has at least one element.
Model of splitting a Python string on a single-character separator. -/
def splitOnChar (sep : Char) : List Char → List (List Char)
  | [] => [[]]
  | c :: rest =>
    let ss := splitOnChar sep rest
    if c = sep then [] :: ss
    else
      match ss with
      | [] => [[c]]
      | s :: tl => (c :: s) :: tl

/-- Python `str.lower()` (ASCII-adequate model). -/
def pyLower (s : String) : String := String.mk (s.data.map Char.toLower)

/-- Whitespace stripped by Python `str.strip()`. -/
def pyWs (c : Char) : Bool :=
  c = ' ' || c = '\t' || c = '\n' || c = '\r' || c = '\x0b' || c = '\x0c'

/-- Python `str.strip()`. -/
def pyStrip (s : String) : String :=
  String.mk (((s.data.dropWhile pyWs).reverse.dropWhile pyWs).reverse)

/-- Python `str.startswith(pre)`. -/
def pyStartsWith (s pre : String) : Bool := pre.data.isPrefixOf s.data

/-- Worker for `pyReplace`: left-to-right, non-overlapping replacement of
`pat` by `rep`; the fuel argument is an upper bound on the number of steps
(one step consumes at least one character). -/
def pyReplaceAux (pat rep : List Char) : Nat → List Char → List Char
  | _, [] => []
  | 0, cs => cs
  | fuel + 1, c :: cs =>
    if pat.isPrefixOf (c :: cs) then
      rep ++ pyReplaceAux pat rep fuel (List.drop pat.length (c :: cs))
    else
      c :: pyReplaceAux pat rep fuel cs

/-- Python `str.replace(pat, rep)` (replaces every occurrence). -/
def pyReplace (s pat rep : String) : String :=
  if pat.data = [] then s
  else String.mk (pyReplaceAux pat.data rep.data s.data.length s.data)

/-- Python `sub in s` substring test (used by `do_search`). -/
def containsSub (pat : List Char) : List Char → Bool
  | [] => pat.isEmpty
  | c :: rest => pat.isPrefixOf (c :: rest) || containsSub pat rest

/-- Python `os.path.basename` for forward-slash paths: the part of the
path after the last `'/'`. -/
def basename (p : String) : String :=
  String.mk ((p.data.reverse.takeWhile (fun c => c ≠ '/')).reverse)

/-- `os.path.join(p, n)` on POSIX for a single extra component: `n` wins
if absolute; otherwise a `'/'` separator is inserted unless `p` is empty
or already ends with `'/'`. -/
def joinPath (p n : String) : String :=
  if n.data.head? = some '/' then n
  else if p.data = [] ∨ p.data.getLast? = some '/' then p ++ n
  else p ++ "/" ++ n

/-- The `.replace('\\', '/')` applied by `_fetch_path_contents` to each
joined path (single-character pattern, so a character map). -/
def replaceBackslash (s : String) : String :=
  String.mk (s.data.map (fun c => if c = '\\' then '/' else c))

/-! ## Filesystem model

The remote share served by the external SMB library is modelled as a
finite tree.  `listPath` resolves a slash-separated path in the tree and
returns the directory listing (including the `.`/`..` entries the real
library reports, which the code filters out).  A `bad` predicate marks
paths whose listing call raises, modelling per-directory listing
failures. -/

inductive FSNode where
  | file (size : Nat)
  | dir (entries : List (String × FSNode))

/-- One row of a directory listing, as consumed from the external
library: `item.filename`, `item.isDirectory`, `item.file_size`. -/
structure Item where
  filename : String
  isDirectory : Bool
  file_size : Nat

def nodeIsDir : FSNode → Bool
  | .file _ => false
  | .dir _ => true

def nodeSize : FSNode → Nat
  | .file sz => sz
  | .dir _ => 0

/-- Child of a directory-entry list with the given name. -/
def childNamed (name : String) : List (String × FSNode) → Option FSNode
  | [] => none
  | e :: rest => if e.1 = name then some e.2 else childNamed name rest

/-- Resolve a list of path components in a tree. -/
def resolveNode : FSNode → List String → Option FSNode
  | n, [] => some n
  | .file _, _ :: _ => none
  | .dir es, s :: rest =>
    match childNamed s es with
    | some c => resolveNode c rest
    | none => none

/-- Path components of a slash-separated path (empty components dropped,
as an SMB server treats `"/"`-separated names). -/
def parsePath (p : String) : List String :=
  ((splitOnChar '/' p.data).filter (fun l => l ≠ [])).map String.mk

/-- The listing returned by the external library for a directory: the
`.`/`..` entries followed by one `Item` per child. -/
def listingOf (es : List (String × FSNode)) : List Item :=
  ⟨".", true, 0⟩ :: ⟨"..", true, 0⟩ ::
    es.map (fun e => ⟨e.1, nodeIsDir e.2, nodeSize e.2⟩)

/-- `conn.listPath(share, path)`: fails (raises) when `bad path` is set or
when the path does not resolve to a directory. -/
def listPath (root : FSNode) (bad : String → Bool) (path : String) :
    Except Unit (List Item) :=
  if bad path then .error ()
  else
    match resolveNode root (parsePath path) with
    | some (.dir es) => .ok (listingOf es)
    | _ => .error ()

/-! ## `BrowserWorker._fetch_path_contents` (SMBOverSocksBrowser.py 601-623)

The loop body
```
for item in conn.listPath(...):
    if item.filename in ['.', '..']: continue
    full_path = os.path.join(path, item.filename).replace('\\', '/')
    if item.isDirectory: subdirs_found.append(full_path)
    else: files_found.append((full_path, item.file_size))
```
is `partitionItems`; the session construction / global proxy mutation that
precedes it is modelled separately (`fetch_path_contents_netstate`
below), and the listing value it produces here. -/

def fullPathOf (path filename : String) : String :=
  replaceBackslash (joinPath path filename)

def partitionItems (path : String) :
    List Item → List (String × Nat) × List String
  | [] => ([], [])
  | item :: rest =>
    let (fs, ds) := partitionItems path rest
    if item.filename = "." ∨ item.filename = ".." then (fs, ds)
    else if item.isDirectory then (fs, fullPathOf path item.filename :: ds)
    else ((fullPathOf path item.filename, item.file_size) :: fs, ds)

def fetch_path_contents (root : FSNode) (bad : String → Bool) (path : String) :
    Except Unit (List (String × Nat) × List String) :=
  match listPath root bad path with
  | .error e => .error e
  | .ok items => .ok (partitionItems path items)

/-! ## `BrowserWorker._build_cache_parallel` (SMBOverSocksBrowser.py 583-599)

Level-synchronous walk: one listing task per frontier path is submitted
to the pool; results are consumed in completion order (`as_completed`),
each extending the flat cache with its files and the next frontier with
its subdirectories; a failed task is caught and contributes nothing.
Completion order within a level is a permutation of the submitted paths,
modelled by the schedule `sched` (one permutation per level); the
worker-pool width only bounds parallelism and does not affect which
results are produced.  The `while dirs_to_scan:` loop is unrolled with a
fuel argument; a run whose returned frontier is empty corresponds to a
build that ran the loop to completion. -/

def resultFiles : Except Unit (List (String × Nat) × List String) →
    List (String × Nat)
  | .ok r => r.1
  | .error _ => []

def resultDirs : Except Unit (List (String × Nat) × List String) →
    List String
  | .ok r => r.2
  | .error _ => []

/-- Files accumulated by one frontier level, in completion order. -/
def levelFiles (root : FSNode) (bad : String → Bool) :
    List String → List (String × Nat)
  | [] => []
  | p :: ps =>
    resultFiles (fetch_path_contents root bad p) ++ levelFiles root bad ps

/-- Subdirectories accumulated by one frontier level, in completion
order. -/
def levelDirs (root : FSNode) (bad : String → Bool) :
    List String → List String
  | [] => []
  | p :: ps =>
    resultDirs (fetch_path_contents root bad p) ++ levelDirs root bad ps

/-- The frontier loop of `_build_cache_parallel`.  Returns the cache
contents together with the frontier remaining when the fuel ran out
(`[]` exactly when the `while` loop terminated). -/
def buildLoop (root : FSNode) (bad : String → Bool)
    (sched : Nat → List String → List String) :
    Nat → Nat → List String → List (String × Nat) × List String
  | _, 0, frontier => ([], frontier)
  | lvl, fuel + 1, frontier =>
    if frontier.isEmpty then ([], [])
    else
      let ordered := sched lvl frontier
      let files := levelFiles root bad ordered
      let next := levelDirs root bad ordered
      let (more, rem) := buildLoop root bad sched (lvl + 1) fuel next
      (files ++ more, rem)

/-- `_build_cache_parallel`: the walk starts from the frontier `['/']`. -/
def build_cache_parallel (root : FSNode) (bad : String → Bool)
    (sched : Nat → List String → List String) (fuel : Nat) :
    List (String × Nat) × List String :=
  buildLoop root bad sched 0 fuel ["/"]

/-! ## `BrowserWorker` state and slots (SMBOverSocksBrowser.py 501-581)

`WorkerState` carries the fields of `BrowserWorker` that the caching and
search slots read and write.  The outcome of the embedded call to
`_build_cache_parallel` (return normally with a cache, or raise after
having extended the cache to some intermediate value) is passed in
explicitly as a `BuildOutcome`, so that every `try/except/finally` path
of the Python code is covered; the claims instantiate it with
`.ok (build_cache_parallel ...).1` for a normal build. -/

structure WorkerState where
  smb_connected : Bool
  is_cached : Bool
  is_caching : Bool
  file_path_cache : List (String × Nat)
  is_running : Bool
deriving DecidableEq

inductive BuildOutcome where
  | ok (cache : List (String × Nat))
  | raised (partialCache : List (String × Nat))
deriving DecidableEq

/-- `start_background_caching` (lines 535-550).  The returned `Bool`
records whether `_build_cache_parallel` was invoked (the walk ran).
On the guarded path nothing happens; otherwise `is_caching` is set,
the cache is cleared and rebuilt (or left at the partial value when the
build raises, with the error reported via `status_update`), `is_cached`
is set only on success, and the `finally` block always resets
`is_caching`. -/
def start_background_caching (s : WorkerState) (b : BuildOutcome) :
    WorkerState × Bool :=
  if !s.smb_connected || s.is_cached || s.is_caching || !s.is_running then
    (s, false)
  else
    match b with
    | .ok c =>
      ({ s with is_caching := false, file_path_cache := c, is_cached := true },
       true)
    | .raised pc =>
      ({ s with is_caching := false, file_path_cache := pc }, true)

/-- The list comprehension of `do_search` (line 572):
`[(path, size) for path, size in self.file_path_cache
  if keyword.lower() in os.path.basename(path).lower()]`. -/
def search_filter (cache : List (String × Nat)) (keyword : String) :
    List (String × Nat) :=
  cache.filter
    (fun e => containsSub (pyLower keyword).data (pyLower (basename e.1)).data)

/-- `do_search` (lines 552-581).  Returns the new state, the argument of
the `search_finished.emit` call (`none` when no emit happens, i.e. the
`not self.smb_connection` early return), and whether
`_build_cache_parallel` was invoked. -/
def do_search (s : WorkerState) (b : BuildOutcome) (keyword : String) :
    WorkerState × Option (List (String × Nat)) × Bool :=
  if !s.smb_connected then (s, none, false)
  else if s.is_caching then (s, some [], false)
  else if !s.is_cached then
    match b with
    | .ok c =>
      let s' := { s with file_path_cache := c, is_cached := true,
                         is_caching := false }
      (s', some (search_filter c keyword), true)
    | .raised pc =>
      ({ s with file_path_cache := pc, is_caching := false }, some [], true)
  else (s, some (search_filter s.file_path_cache keyword), false)

/-! ## Process-global proxy/socket state (C5)

`_fetch_path_contents` (lines 605-609) and `check_smb_host`
(scanner_process.py 15-27) both begin by calling
`socks.set_default_proxy(...)` and assigning `socket.socket =
socks.socksocket`.  `GlobalNet` models that process-wide state; the two
functions below are the exact global-state effect of those lines. -/

structure GlobalNet where
  default_proxy : Option (String × Nat)
  socket_patched : Bool
deriving DecidableEq

structure BrowserConfig where
  use_proxy : Bool
  proxy_host : String
  proxy_port : Nat

/-- Global-state effect of one `_fetch_path_contents` worker task
(SMBOverSocksBrowser.py 605-609). -/
def fetch_path_contents_netstate (cfg : BrowserConfig) (_g : GlobalNet) :
    GlobalNet :=
  { default_proxy :=
      if cfg.use_proxy then some (cfg.proxy_host, cfg.proxy_port) else none,
    socket_patched := true }

/-- Global-state effect of the prologue of one `check_smb_host` task
(scanner_process.py 17-25). -/
def check_smb_host_netstate (use_proxy : Bool) (proxy_port : Nat)
    (_g : GlobalNet) : GlobalNet :=
  { default_proxy := if use_proxy then some ("127.0.0.1", proxy_port) else none,
    socket_patched := true }

/-! ## Scanner stage-2 share classification (scanner_process.py 39-62)

For each share whose name does not end in `'$'`, `check_smb_host` probes
READ by `listPath(share, '/')` and WRITE by `createDirectory` followed by
`deleteDirectory` of a fresh temporary directory, any exception meaning
the permission is absent, and renders the result as a string.  A
`ShareProbe` records whether each of the three calls would succeed; the
returned trace lists the probe calls actually issued. -/

structure ShareProbe where
  listPath_ok : Bool
  createDirectory_ok : Bool
  deleteDirectory_ok : Bool

inductive ProbeCall where
  | listPath
  | createDirectory
  | deleteDirectory
deriving DecidableEq

/-- The permission string computed for one non-administrative share,
together with the probe calls issued (lines 41-60). -/
def share_permission_string (quick_scan : Bool) (p : ShareProbe) :
    String × List ProbeCall :=
  if !quick_scan then
    let write_calls : List ProbeCall :=
      if p.createDirectory_ok then [.createDirectory, .deleteDirectory]
      else [.createDirectory]
    let write_ok := p.createDirectory_ok && p.deleteDirectory_ok
    let perms_list :=
      (if p.listPath_ok then ["READ"] else []) ++
        (if write_ok then ["WRITE"] else [])
    (if perms_list = [] then "NO_ACCESS" else String.intercalate ", " perms_list,
     .listPath :: write_calls)
  else
    ("N/A (Quick Scan)", [])

/-- `share.name.endswith('$')`. -/
def endsWithDollar (n : String) : Bool := n.data.getLast? = some '$'

/-- The `for share in shares:` loop of `check_smb_host` (lines 39-62):
administrative shares are skipped, the rest get a permissions string. -/
def check_host_share_info (quick_scan : Bool) :
    List (String × ShareProbe) → List (String × String)
  | [] => []
  | (name, p) :: rest =>
    if !endsWithDollar name then
      (name, (share_permission_string quick_scan p).1) ::
        check_host_share_info quick_scan rest
    else check_host_share_info quick_scan rest

/-- The spec's `ShareExposure.permissions` enumeration. -/
inductive SharePerm where
  | READ
  | WRITE
  | READ_WRITE
  | NO_ACCESS
  | UNKNOWN
deriving DecidableEq

/-- How `check_smb_host` renders each abstract permission class on the
wire (`", ".join(perms_list)`, `"NO_ACCESS"`, `"N/A (Quick Scan)"`). -/
def renderPerm : SharePerm → String
  | .READ => "READ"
  | .WRITE => "WRITE"
  | .READ_WRITE => "READ, WRITE"
  | .NO_ACCESS => "NO_ACCESS"
  | .UNKNOWN => "N/A (Quick Scan)"

/-- Abstract classification from the two probe outcomes (the spec's
"set union" of READ and WRITE). -/
def classifyProbes (read_ok write_ok : Bool) : SharePerm :=
  if read_ok && write_ok then .READ_WRITE
  else if read_ok then .READ
  else if write_ok then .WRITE
  else .NO_ACCESS

/-! ## Scan output protocol (SMBBrowserApp.handle_scanner_output, 1102-1120)

The handler appends the chunk to `self.scanner_buffer` and, while the
buffer contains `'\n'`, strips off the first line: an empty line is
skipped, a `STATUS:` line yields a status update, a `RESULT:` line is
JSON-decoded (a decode failure is logged and dropped), anything else is
ignored.  `json.loads` is modelled by `json_loads` below for the JSON
subset the protocol carries (objects, arrays, strings with the common
escapes, integers and the literals). -/

inductive Json where
  | null
  | bool (b : Bool)
  | num (n : Int)
  | str (s : String)
  | arr (elts : List Json)
  | obj (fields : List (String × Json))

/-- JSON whitespace. -/
def jWs (c : Char) : Bool := c = ' ' || c = '\t' || c = '\n' || c = '\r'

def skipWs : List Char → List Char
  | [] => []
  | c :: rest => if jWs c then skipWs rest else c :: rest

/-- JSON escape characters as a lookup table (`\uXXXX` is not needed by
the protocol and is rejected). -/
def jEscTable : List (Char × Char) :=
  [('"', '"'), ('\\', '\\'), ('/', '/'), ('n', '\n'), ('t', '\t'),
   ('r', '\r'), ('b', '\x08'), ('f', '\x0c')]

def jEsc (c : Char) : Option Char := jEscTable.lookup c

/-- Parse the body of a JSON string (after the opening quote). -/
def parseJStr (acc : List Char) : List Char → Option (String × List Char)
  | [] => none
  | '"' :: rest => some (String.mk acc.reverse, rest)
  | '\\' :: c :: rest =>
    match jEsc c with
    | some c' => parseJStr (c' :: acc) rest
    | none => none
  | '\\' :: [] => none
  | c :: rest => parseJStr (c :: acc) rest

def digitsToNat : List Char → Nat
  | [] => 0
  | ds => ds.foldl (fun acc d => acc * 10 + (d.toNat - '0'.toNat)) 0

/-- Parse a JSON integer (floats are rejected; the protocol carries
none). -/
def parseNum (cs : List Char) : Option (Json × List Char) :=
  let (neg, cs1) :=
    match cs with
    | '-' :: rest => (true, rest)
    | _ => (false, cs)
  let ds := cs1.takeWhile Char.isDigit
  let rest := cs1.dropWhile Char.isDigit
  if ds = [] then none
  else
    match rest with
    | '.' :: _ => none
    | 'e' :: _ => none
    | 'E' :: _ => none
    | _ =>
      let n : Int := Int.ofNat (digitsToNat ds)
      some (.num (if neg then -n else n), rest)

/-- What the JSON parser is currently asked to produce: a value, the
items of an array (after `[` when not immediately `]`), or the fields of
an object (after `\x7b` when not immediately `\x7d`). -/
inductive JReq where
  | val
  | arrItems
  | objItems

/-- Recursive-descent JSON parser; the fuel dominates the nesting depth
(one unit per recursive step, each of which consumes input). -/
def parseJ : Nat → JReq → List Char → Option (Json × List Char)
  | 0, _, _ => none
  | fuel + 1, .val, cs =>
    match skipWs cs with
    | 'n' :: 'u' :: 'l' :: 'l' :: r => some (.null, r)
    | 't' :: 'r' :: 'u' :: 'e' :: r => some (.bool true, r)
    | 'f' :: 'a' :: 'l' :: 's' :: 'e' :: r => some (.bool false, r)
    | '"' :: r => (parseJStr [] r).map (fun sr => (.str sr.1, sr.2))
    | '[' :: r =>
      (match skipWs r with
       | ']' :: r2 => some (.arr [], r2)
       | _ => parseJ fuel .arrItems r)
    | '\x7b' :: r =>
      (match skipWs r with
       | '\x7d' :: r2 => some (.obj [], r2)
       | _ => parseJ fuel .objItems r)
    | c :: r => if c = '-' || c.isDigit then parseNum (c :: r) else none
    | [] => none
  | fuel + 1, .arrItems, cs =>
    match parseJ fuel .val cs with
    | none => none
    | some (v, r) =>
      match skipWs r with
      | ',' :: r2 =>
        (match parseJ fuel .arrItems r2 with
         | some (.arr vs, r3) => some (.arr (v :: vs), r3)
         | _ => none)
      | ']' :: r2 => some (.arr [v], r2)
      | _ => none
  | fuel + 1, .objItems, cs =>
    match skipWs cs with
    | '"' :: r =>
      (match parseJStr [] r with
       | some (k, r1) =>
         (match skipWs r1 with
          | ':' :: r2 =>
            (match parseJ fuel .val r2 with
             | some (v, r3) =>
               (match skipWs r3 with
                | ',' :: r4 =>
                  (match parseJ fuel .objItems r4 with
                   | some (.obj kvs, r5) => some (.obj ((k, v) :: kvs), r5)
                   | _ => none)
                | '\x7d' :: r4 => some (.obj [(k, v)], r4)
                | _ => none)
             | none => none)
          | _ => none)
       | none => none)
    | _ => none

/-- Model of `json.loads`: parse one value and require only whitespace to
remain. -/
def json_loads (s : String) : Option Json :=
  match parseJ (s.data.length + 1) .val s.data with
  | some (j, r) => if skipWs r = [] then some j else none
  | none => none

/-- The externally observable events of one pass over the buffer:
`update_status` calls, successfully decoded `RESULT` payloads, and
logged-and-dropped undecodable `RESULT` lines. -/
inductive ScanEvent where
  | status (msg : String)
  | result (j : Json)
  | decodeError (line : String)

/-- Processing of one complete line (lines 1106-1120): the line is
stripped at extraction time, an empty line is skipped, and the
`STATUS:`/`RESULT:` prefixes are dispatched (`line.replace(prefix, "")`
removes every occurrence, as in the source). -/
def processLine (rawLine : String) : List ScanEvent :=
  let l := pyStrip rawLine
  if l.data = [] then []
  else if pyStartsWith l "STATUS:" then
    [.status (pyStrip (pyReplace l "STATUS:" ""))]
  else if pyStartsWith l "RESULT:" then
    match json_loads (pyStrip (pyReplace l "RESULT:" "")) with
    | some j => [.result j]
    | none => [.decodeError l]
  else []

/-- The `while '\n' in self.scanner_buffer:` loop: `splitOnChar '\n'`
yields the complete lines followed by the trailing partial line, exactly
the successive `buffer[:newline_pos]` slices and the final buffer. -/
def drainParts : List (List Char) → List ScanEvent × String
  | [] => ([], "")
  | [rest] => ([], String.mk rest)
  | line :: ps =>
    let (evs, buf) := drainParts ps
    (processLine (String.mk line) ++ evs, buf)

/-- `handle_scanner_output`: append the decoded chunk to the buffer and
drain every complete line, returning the emitted events and the new
buffer. -/
def handle_scanner_output (buffer chunk : String) :
    List ScanEvent × String :=
  drainParts (splitOnChar '\n' (buffer.data ++ chunk.data))

/-! ## Well-formedness and path bookkeeping for the walk proofs

A real share is a finite tree whose entry names are nonempty, contain no
path separator or backslash, are not the `.`/`..` pseudo-entries, and are
unique within their directory (`Wf`).  `pathOf` builds the canonical
forward-slash path of a component list exactly as the walk does
(`os.path.join` folded from `"/"`), and `goodChain` says that no
ancestor directory of a path is one whose listing fails. -/

def ValidName (n : String) : Prop :=
  n.data ≠ [] ∧ (∀ c ∈ n.data, c ≠ '/' ∧ c ≠ '\\') ∧ n ≠ "." ∧ n ≠ ".."

instance : DecidablePred ValidName := fun n => by
  unfold ValidName; infer_instance

def ValidSegs (segs : List String) : Prop := ∀ n ∈ segs, ValidName n

def NamesOk (es : List (String × FSNode)) : Prop :=
  (∀ e ∈ es, ValidName e.1) ∧ (es.map Prod.fst).Nodup

inductive Wf : FSNode → Prop where
  | file (sz : Nat) : Wf (.file sz)
  | dir (es : List (String × FSNode)) (hn : NamesOk es)
      (hc : ∀ e ∈ es, Wf e.2) : Wf (.dir es)

/-- The canonical path of a component list, built the way the walk
builds its paths: `os.path.join` folded from the root `"/"`. -/
def pathOf (segs : List String) : String := segs.foldl joinPath "/"

/-- Character-level shape of `pathOf` for a nonempty component list:
each component preceded by a `'/'`. -/
def catSegs : List String → List Char
  | [] => []
  | n :: rest => '/' :: n.data ++ catSegs rest

/-- No ancestor directory of `segs` (the share root included, `segs`
itself excluded) is a failing path. -/
def goodChain (bad : String → Bool) (segs : List String) : Prop :=
  ∀ k, k < segs.length → bad (pathOf (segs.take k)) = false

/-- `segs` resolves to a file of size `sz` in `root`. -/
def fileAt (root : FSNode) (segs : List String) (sz : Nat) : Prop :=
  resolveNode root segs = some (.file sz)

/-- Invariant of the frontier entering level `lvl` of the walk: distinct
canonical paths of valid directory component lists of length `lvl`,
none of whose ancestors failed. -/
def FrontierInv (root : FSNode) (bad : String → Bool) (lvl : Nat)
    (frontier : List String) : Prop :=
  frontier.Nodup ∧
  ∀ p ∈ frontier, ∃ f, p = pathOf f ∧ f.length = lvl ∧ ValidSegs f ∧
    (∃ es, resolveNode root f = some (.dir es)) ∧ goodChain bad f

/-- The file records one successful listing of directory `f` contributes
(in listing order). -/
def childFiles (f : List String) (es : List (String × FSNode)) :
    List (String × Nat) :=
  es.filterMap (fun e =>
    match e.2 with
    | .file sz => some (pathOf (f ++ [e.1]), sz)
    | .dir _ => none)

/-- The subdirectory component lists one successful listing of `f`
contributes to the next frontier. -/
def childDirs (f : List String) (es : List (String × FSNode)) :
    List (List String) :=
  es.filterMap (fun e =>
    match e.2 with
    | .dir _ => some (f ++ [e.1])
    | .file _ => none)

/-- A per-level completion order: a permutation of each submitted
frontier, as delivered by `as_completed`. -/
def ValidSched (sched : Nat → List String → List String) : Prop :=
  ∀ n l, (sched n l).Perm l

/-! ## Claims about classification, search, guards, global state, protocol -/

/-- C1: For every non-administrative share probed in full (non-quick)
mode, stage 2 classifies it READ_WRITE when both the root-directory
listing and the create-then-delete probe succeed, READ when only the
listing succeeds, NO_ACCESS when both probes throw (any exception on a
probe means the permission is absent), and in quick mode classifies it
UNKNOWN without invoking any probe call; administrative (`$`-suffixed)
shares are skipped.  The concrete strings rendered by the code for each
class are those of `renderPerm`. -/
theorem claim_C1_share_classification (p : ShareProbe) (quick : Bool)
    (shares : List (String × ShareProbe)) :
    (share_permission_string false p).1 =
      renderPerm (classifyProbes p.listPath_ok
        (p.createDirectory_ok && p.deleteDirectory_ok)) ∧
    share_permission_string true p = (renderPerm .UNKNOWN, []) ∧
    check_host_share_info quick shares =
      (shares.filter (fun e => !endsWithDollar e.1)).map
        (fun e => (e.1, (share_permission_string quick e.2).1)) := by
  refine ⟨?_, rfl, ?_⟩
  · obtain ⟨r, c, d⟩ := p
    cases r <;> cases c <;> cases d <;> rfl
  · induction shares with
    | nil => rfl
    | cons e rest ih =>
      obtain ⟨name, pr⟩ := e
      by_cases h : endsWithDollar name = true <;>
        simp [check_host_share_info, h, ih, List.filter_cons]

/-- C2 counterexample: invoking `do_search` while the indexer is Idle
(connected, not cached, not caching) does not return an empty result:
with a share holding the single file `/f1`, the invocation builds the
cache and returns the actual match `("/f1", 7)` in the same call, so the
caller need not re-issue the search. -/
theorem claim_C2_counterexample :
    (do_search ⟨true, false, false, [], true⟩
        (.ok (build_cache_parallel (.dir [("f1", .file 7)]) (fun _ => false)
          (fun _ l => l) 2).1) "f1").2.1 = some [("/f1", 7)] ∧
    some [("/f1", 7)] ≠ some ([] : List (String × Nat)) := by
  exact ⟨rfl, by decide⟩

/-- C2 (amended): if search is invoked while the indexer is Idle (cache
not yet built and no build in progress), it triggers the cache build as
a side effect (the build runs inside the same invocation) and then
evaluates the search against the freshly built cache, emitting its
matches in that same invocation; afterwards the state is Ready
(`is_cached`), so no re-issue is needed. -/
theorem claim_C2_idle_search_builds_and_returns_matches
    (s : WorkerState) (c : List (String × Nat)) (k : String)
    (h1 : s.smb_connected = true) (h2 : s.is_cached = false)
    (h3 : s.is_caching = false) :
    do_search s (.ok c) k =
      ({ s with file_path_cache := c, is_cached := true, is_caching := false },
       some (search_filter c k), true) := by
  simp [do_search, h1, h2, h3]

/-- Witness for C2's amended theorem at a concrete Idle state. -/
theorem claim_C2_witness :
    (⟨true, false, false, [], true⟩ : WorkerState).smb_connected = true ∧
    (⟨true, false, false, [], true⟩ : WorkerState).is_cached = false ∧
    (⟨true, false, false, [], true⟩ : WorkerState).is_caching = false ∧
    do_search ⟨true, false, false, [], true⟩ (.ok [("/f1", 7)]) "f1" =
      (⟨true, true, false, [("/f1", 7)], true⟩, some [("/f1", 7)], true) :=
  ⟨rfl, rfl, rfl,
    claim_C2_idle_search_builds_and_returns_matches _ _ _ rfl rfl rfl⟩

/-- C4: for every built cache and keyword, `do_search` emits exactly the
cache entries whose final path segment contains the keyword
case-insensitively, in cache (insertion) order: the emission is the
filter of the cache, membership in it is exactly the case-insensitive
basename test, it is a sublist of the cache (so insertion order is
preserved), keywords equal up to case give identical results, and a
keyword matching nothing gives `[]`. -/
theorem claim_C4_search_filter (s : WorkerState) (b : BuildOutcome)
    (k k' : String) (h1 : s.smb_connected = true) (h2 : s.is_cached = true)
    (h3 : s.is_caching = false) :
    (do_search s b k).2.1 = some (search_filter s.file_path_cache k) ∧
    (∀ e, e ∈ search_filter s.file_path_cache k ↔
      e ∈ s.file_path_cache ∧
        containsSub (pyLower k).data (pyLower (basename e.1)).data = true) ∧
    List.Sublist (search_filter s.file_path_cache k) s.file_path_cache ∧
    (pyLower k' = pyLower k →
      search_filter s.file_path_cache k' = search_filter s.file_path_cache k) ∧
    ((∀ e ∈ s.file_path_cache,
        containsSub (pyLower k).data (pyLower (basename e.1)).data = false) →
      search_filter s.file_path_cache k = []) := by
  refine ⟨by simp [do_search, h1, h2, h3], ?_, List.filter_sublist _, ?_, ?_⟩
  · intro e
    simp [search_filter, List.mem_filter]
  · intro h
    simp [search_filter, h]
  · intro h
    refine List.filter_eq_nil_iff.mpr ?_
    intro e he
    simp [h e he]

/-- Witness for C4 at the spec's example cache: the case-varied keyword
`"F2"` returns exactly the `/b/f2` record. -/
theorem claim_C4_witness :
    (⟨true, true, false, [("/f1", 10), ("/b/f2", 20), ("/b/c/f3", 30)], true⟩ :
      WorkerState).smb_connected = true ∧
    (⟨true, true, false, [("/f1", 10), ("/b/f2", 20), ("/b/c/f3", 30)], true⟩ :
      WorkerState).is_cached = true ∧
    (⟨true, true, false, [("/f1", 10), ("/b/f2", 20), ("/b/c/f3", 30)], true⟩ :
      WorkerState).is_caching = false ∧
    (do_search
      ⟨true, true, false, [("/f1", 10), ("/b/f2", 20), ("/b/c/f3", 30)], true⟩
      (.ok []) "F2").2.1 = some [("/b/f2", 20)] :=
  ⟨rfl, rfl, rfl,
    (claim_C4_search_filter _ (.ok []) "F2" "f2" rfl rfl rfl).1⟩

/-- C5 counterexample: an indexer worker task does mutate the
process-global proxy/socket configuration.  Starting from a clean global
state (no default proxy, unpatched socket), running one
`_fetch_path_contents` task with a proxy configuration leaves the global
state changed, and so does the prologue of one scanner
`check_smb_host` task. -/
theorem claim_C5_counterexample :
    fetch_path_contents_netstate ⟨true, "127.0.0.1", 9050⟩ ⟨none, false⟩ ≠
      ⟨none, false⟩ ∧
    check_smb_host_netstate true 9050 ⟨none, false⟩ ≠ ⟨none, false⟩ := by
  exact ⟨by decide, by decide⟩

/-- C5 (amended): each `_fetch_path_contents` worker task and each
scanner `check_smb_host` task overwrites the process-wide default proxy
(`socks.set_default_proxy`) and replaces the global socket factory
(`socket.socket = socks.socksocket`) from its own configuration before
opening its session; the resulting global state is determined by that
task's configuration alone, independent of the state before the task
ran — the configuration is not passed explicitly to the session but
installed globally. -/
theorem claim_C5_global_state_overwritten (cfg : BrowserConfig)
    (g g' : GlobalNet) (use_proxy : Bool) (port : Nat) :
    fetch_path_contents_netstate cfg g = fetch_path_contents_netstate cfg g' ∧
    fetch_path_contents_netstate cfg g =
      ⟨if cfg.use_proxy then some (cfg.proxy_host, cfg.proxy_port) else none,
        true⟩ ∧
    check_smb_host_netstate use_proxy port g =
      check_smb_host_netstate use_proxy port g' ∧
    check_smb_host_netstate use_proxy port g =
      ⟨if use_proxy then some ("127.0.0.1", port) else none, true⟩ :=
  ⟨rfl, rfl, rfl, rfl⟩

/-- C6: requesting a cache build while a build is already in progress is
a no-op: a `start_background_caching` call that observes `is_caching`
returns with the state unchanged (the cache is not cleared) and without
invoking the walk; and of two back-to-back requests from the initial
connected state, only the first runs the walk, the second is a no-op. -/
theorem claim_C6_build_guard (s : WorkerState) (b b₂ : BuildOutcome)
    (h : s.is_caching = true) :
    start_background_caching s b = (s, false) ∧
    (∀ s₀ c, s₀.smb_connected = true → s₀.is_cached = false →
      s₀.is_caching = false → s₀.is_running = true →
      (start_background_caching s₀ (.ok c)).2 = true ∧
      start_background_caching (start_background_caching s₀ (.ok c)).1 b₂ =
        ((start_background_caching s₀ (.ok c)).1, false)) := by
  constructor
  · simp [start_background_caching, h]
  · intro s₀ c h1 h2 h3 h4
    constructor <;> simp [start_background_caching, h1, h2, h3, h4]

/-- Witness for C6 at a concrete Building state and a concrete second
request after a completed first build. -/
theorem claim_C6_witness :
    (⟨true, false, true, [("x", 1)], true⟩ : WorkerState).is_caching = true ∧
    start_background_caching ⟨true, false, true, [("x", 1)], true⟩
      (.ok []) = (⟨true, false, true, [("x", 1)], true⟩, false) ∧
    start_background_caching
      (start_background_caching ⟨true, false, false, [], true⟩
        (.ok [("/f1", 7)])).1 (.raised []) =
      ((start_background_caching ⟨true, false, false, [], true⟩
        (.ok [("/f1", 7)])).1, false) :=
  ⟨rfl, (claim_C6_build_guard _ (.ok []) (.raised []) rfl).1,
    ((claim_C6_build_guard ⟨true, false, true, [("x", 1)], true⟩ (.ok [])
      (.raised []) rfl).2 ⟨true, false, false, [], true⟩ [("/f1", 7)]
      rfl rfl rfl rfl).2⟩

/-- C10: the `is_caching` guard is always cleared when a build or search
invocation finishes: from any state reachable between slot invocations
(`is_caching = false`), both `start_background_caching` and `do_search`
leave `is_caching = false` on every path, including when the cache build
raises (`BuildOutcome.raised`), so one failed build never leaves the
worker stuck in the building state. -/
theorem claim_C10_guard_always_cleared (s : WorkerState) (b : BuildOutcome)
    (k : String) (h : s.is_caching = false) :
    (start_background_caching s b).1.is_caching = false ∧
    (do_search s b k).1.is_caching = false := by
  obtain ⟨sc, icd, icg, cache, run⟩ := s
  cases b <;> cases sc <;> cases icd <;> cases run <;>
    simp_all [start_background_caching, do_search]

/-- Witness for C10 at a concrete state with a raising build. -/
theorem claim_C10_witness :
    (⟨true, false, false, [], true⟩ : WorkerState).is_caching = false ∧
    ((start_background_caching ⟨true, false, false, [], true⟩
        (.raised [("x", 1)])).1.is_caching = false ∧
      (do_search ⟨true, false, false, [], true⟩
        (.raised [("x", 1)]) "q").1.is_caching = false) :=
  ⟨rfl, claim_C10_guard_always_cleared _ (.raised [("x", 1)]) "q" rfl⟩

/-- C8: the scan-output parser buffers a partial line across read
chunks and splits strictly on newlines: the chunk
`"STATUS:a\nRESULT:{\"host\":"` yields exactly one STATUS event with the
partial RESULT line kept in the buffer (no partial-line event), and the
follow-up chunk completing the line yields exactly one successfully
parsed RESULT event. -/
theorem claim_C8_line_buffering :
    handle_scanner_output "" "STATUS:a\nRESULT:\x7b\"host\":" =
      ([.status "a"], "RESULT:\x7b\"host\":") ∧
    handle_scanner_output "RESULT:\x7b\"host\":"
        "\"h\",\"status\":\"success\",\"shares\":[]\x7d\n" =
      ([.result (.obj [("host", .str "h"), ("status", .str "success"),
        ("shares", .arr [])])], "") :=
  ⟨rfl, rfl⟩

/-- C9: a RESULT line whose payload is not valid JSON produces zero
parsed results — it is logged and dropped — and processing of the
subsequent lines in the stream continues: after `"RESULT:{not json}"`
both a later STATUS line and a later well-formed RESULT line are still
handled. -/
theorem claim_C9_malformed_result_tolerated :
    handle_scanner_output ""
        "RESULT:\x7bnot json\x7d\nSTATUS:ok\nRESULT:\x7b\"host\":\"h\",\"status\":\"success\",\"shares\":[]\x7d\n" =
      ([.decodeError "RESULT:\x7bnot json\x7d", .status "ok",
        .result (.obj [("host", .str "h"), ("status", .str "success"),
          ("shares", .arr [])])], "") :=
  rfl

/-! ## String-level lemmas for canonical paths -/

theorem mk_data (s : String) : String.mk s.data = s := rfl

theorem splitOnChar_ne_nil (sep : Char) (l : List Char) :
    splitOnChar sep l ≠ [] := by
  induction l with
  | nil => simp [splitOnChar]
  | cons c rest ih =>
    simp only [splitOnChar]
    split
    · simp
    · cases h : splitOnChar sep rest with
      | nil => exact absurd h ih
      | cons s tl => simp [h]

theorem splitOnChar_cons_self (sep : Char) (l : List Char) :
    splitOnChar sep (sep :: l) = [] :: splitOnChar sep l := by
  simp [splitOnChar]

theorem splitOnChar_append (sep : Char) (a : List Char) :
    ∀ {b : List Char} {h : List Char} {t : List (List Char)},
    (∀ c ∈ a, c ≠ sep) → splitOnChar sep b = h :: t →
    splitOnChar sep (a ++ b) = (a ++ h) :: t := by
  induction a with
  | nil => intro b h t _ hb; simpa using hb
  | cons c a' ih =>
    intro b h t ha hb
    have hc : c ≠ sep := ha c (by simp)
    have ih' := ih (fun x hx => ha x (by simp [hx])) hb
    show splitOnChar sep (c :: (a' ++ b)) = ((c :: a') ++ h) :: t
    simp only [splitOnChar, if_neg hc]
    rw [ih']
    simp

theorem splitOnChar_noSep (sep : Char) (a : List Char)
    (ha : ∀ c ∈ a, c ≠ sep) : splitOnChar sep a = [a] := by
  have h : splitOnChar sep ([] : List Char) = [] :: [] := rfl
  have := splitOnChar_append sep a ha h
  simpa using this

theorem catSegs_append (l : List String) (n : String) :
    catSegs (l ++ [n]) = catSegs l ++ '/' :: n.data := by
  induction l with
  | nil => simp [catSegs]
  | cons m rest ih => simp [catSegs, ih]

theorem catSegs_ne_nil (n : String) (rest : List String) :
    catSegs (n :: rest) ≠ [] := by simp [catSegs]

theorem mem_catSegs {c : Char} : ∀ {segs : List String}, c ∈ catSegs segs →
    c = '/' ∨ ∃ n ∈ segs, c ∈ n.data := by
  intro segs
  induction segs with
  | nil => intro h; simp [catSegs] at h
  | cons n rest ih =>
    intro hc
    simp only [catSegs, List.cons_append, List.mem_cons, List.mem_append] at hc
    rcases hc with h1 | h2 | h3
    · exact Or.inl h1
    · exact Or.inr ⟨n, by simp, h2⟩
    · rcases ih h3 with h4 | ⟨m, hm, hcm⟩
      · exact Or.inl h4
      · exact Or.inr ⟨m, by simp [hm], hcm⟩

theorem validName_head {n : String} (h : ValidName n) :
    n.data.head? ≠ some '/' := by
  cases hd : n.data with
  | nil => exact absurd hd h.1
  | cons c cs =>
    simp only [List.head?]
    intro hc
    have hc' : c = '/' := by injection hc
    have : c ∈ n.data := by rw [hd]; simp
    exact (h.2.1 c this).1 hc'

theorem validName_getLast {n : String} (h : ValidName n) :
    ∃ c, n.data.getLast? = some c ∧ c ≠ '/' := by
  have hnd := h.1
  refine ⟨n.data.getLast hnd, List.getLast?_eq_getLast _ hnd, ?_⟩
  exact (h.2.1 _ (List.getLast_mem hnd)).1

theorem pathOf_append_single (f : List String) (n : String) :
    pathOf (f ++ [n]) = joinPath (pathOf f) n := by
  simp [pathOf, List.foldl_append]

theorem pathOf_spec : ∀ (segs : List String), ValidSegs segs → segs ≠ [] →
    (pathOf segs).data = catSegs segs ∧
      ∃ c, (pathOf segs).data.getLast? = some c ∧ c ≠ '/' := by
  intro segs
  induction segs using List.reverseRecOn with
  | nil => intro _ h; exact absurd rfl h
  | append_singleton f n ih =>
    intro hv _
    have hvf : ValidSegs f := fun m hm => hv m (by simp [hm])
    have hvn : ValidName n := hv n (by simp)
    have hnd : n.data ≠ [] := hvn.1
    obtain ⟨cl, hcl, hclne⟩ := validName_getLast hvn
    rw [pathOf_append_single]
    by_cases hf : f = []
    · subst hf
      have hp : pathOf ([] : List String) = "/" := rfl
      have h2 : (joinPath "/" n) = "/" ++ n := by
        unfold joinPath
        rw [if_neg (validName_head hvn), if_pos (by right; rfl)]
      rw [hp, h2]
      constructor
      · rw [String.data_append]
        simp [catSegs]
      · rw [String.data_append]
        have : (("/" : String).data ++ n.data).getLast? = n.data.getLast? :=
          List.getLast?_append_of_ne_nil _ hnd
        exact ⟨cl, by rw [this, hcl], hclne⟩
    · obtain ⟨hfd, c0, hc0, hc0ne⟩ := ih hvf hf
      have hne : (pathOf f).data ≠ [] := by
        rw [hfd]
        cases f with
        | nil => exact absurd rfl hf
        | cons m rest => exact catSegs_ne_nil m rest
      have hlast : (pathOf f).data.getLast? ≠ some '/' := by
        rw [hc0]
        intro h
        exact hc0ne (by injection h)
      have h2 : joinPath (pathOf f) n = pathOf f ++ "/" ++ n := by
        unfold joinPath
        rw [if_neg (validName_head hvn), if_neg (by rintro (h | h) <;> contradiction)]
      rw [h2]
      constructor
      · rw [String.data_append, String.data_append, hfd, catSegs_append]
        simp
      · rw [String.data_append, String.data_append]
        have e1 : ((pathOf f).data ++ ("/" : String).data ++ n.data).getLast? =
            n.data.getLast? := by
          rw [List.append_assoc]
          rw [List.getLast?_append_of_ne_nil _ (by simp)]
          exact List.getLast?_append_of_ne_nil _ hnd
        exact ⟨cl, by rw [e1, hcl], hclne⟩

theorem splitOnChar_catSegs : ∀ (segs : List String), ValidSegs segs →
    splitOnChar '/' (catSegs segs) = [] :: segs.map String.data := by
  intro segs
  induction segs with
  | nil => intro _; rfl
  | cons n rest ih =>
    intro hv
    have hvn : ValidName n := hv n (by simp)
    have hvr : ValidSegs rest := fun m hm => hv m (by simp [hm])
    have hnos : ∀ c ∈ n.data, c ≠ '/' := fun c hc => (hvn.2.1 c hc).1
    have hrec := ih hvr
    calc splitOnChar '/' (catSegs (n :: rest))
        = splitOnChar '/' ('/' :: (n.data ++ catSegs rest)) := by
          simp [catSegs]
      _ = [] :: splitOnChar '/' (n.data ++ catSegs rest) :=
          splitOnChar_cons_self _ _
      _ = [] :: (n.data ++ []) :: rest.map String.data :=
          congrArg _ (splitOnChar_append '/' n.data hnos hrec)
      _ = [] :: (n :: rest).map String.data := by simp

theorem parsePath_pathOf (segs : List String) (hv : ValidSegs segs) :
    parsePath (pathOf segs) = segs := by
  by_cases h : segs = []
  · subst h; rfl
  · have hd := (pathOf_spec segs hv h).1
    unfold parsePath
    rw [hd, splitOnChar_catSegs segs hv, List.filter_cons]
    have hcond : ¬ (decide (([] : List Char) ≠ []) = true) := by simp
    rw [if_neg hcond]
    have h2 : (segs.map String.data).filter (fun l => decide (l ≠ [])) =
        segs.map String.data :=
      List.filter_eq_self.mpr (by
        intro a ha
        obtain ⟨m, hm, rfl⟩ := List.mem_map.mp ha
        simpa using (hv m hm).1)
    rw [h2, List.map_map]
    have h3 : (String.mk ∘ String.data) = id := funext (fun x => mk_data x)
    rw [h3, List.map_id]

theorem pathOf_inj {s₁ s₂ : List String} (h₁ : ValidSegs s₁)
    (h₂ : ValidSegs s₂) (h : pathOf s₁ = pathOf s₂) : s₁ = s₂ := by
  have h3 := parsePath_pathOf s₁ h₁
  rw [h, parsePath_pathOf s₂ h₂] at h3
  exact h3.symm

theorem pathOf_head {segs : List String} (hv : ValidSegs segs) :
    (pathOf segs).data.head? = some '/' := by
  by_cases h : segs = []
  · subst h; rfl
  · rw [(pathOf_spec segs hv h).1]
    cases segs with
    | nil => exact absurd rfl h
    | cons n rest => simp [catSegs]

theorem pathOf_no_backslash {segs : List String} (hv : ValidSegs segs) :
    ∀ c ∈ (pathOf segs).data, c ≠ '\\' := by
  by_cases h : segs = []
  · subst h
    intro c hc
    have : c = '/' := by simpa [pathOf] using hc
    subst this; decide
  · rw [(pathOf_spec segs hv h).1]
    intro c hc
    rcases mem_catSegs hc with h1 | ⟨n, hn, hcn⟩
    · subst h1; decide
    · exact ((hv n hn).2.1 c hcn).2

theorem replaceBackslash_id {s : String} (h : ∀ c ∈ s.data, c ≠ '\\') :
    replaceBackslash s = s := by
  unfold replaceBackslash
  have h1 : s.data.map (fun c => if c = '\\' then '/' else c) = s.data := by
    conv_rhs => rw [← List.map_id s.data]
    exact List.map_congr_left (fun c hc => by simp [h c hc])
  rw [h1, mk_data]

theorem fullPathOf_eq {f : List String} {n : String}
    (hv : ValidSegs (f ++ [n])) :
    fullPathOf (pathOf f) n = pathOf (f ++ [n]) := by
  unfold fullPathOf
  rw [← pathOf_append_single]
  exact replaceBackslash_id (pathOf_no_backslash hv)

/-! ## Resolution and well-formedness lemmas -/

theorem resolveNode_append (a b : List String) : ∀ (n : FSNode),
    resolveNode n (a ++ b) = (resolveNode n a).bind (fun m => resolveNode m b) := by
  induction a with
  | nil => intro n; simp [resolveNode]
  | cons s a' ih =>
    intro n
    cases n with
    | file sz => simp [resolveNode]
    | dir es =>
      show resolveNode (.dir es) (s :: (a' ++ b)) = _
      simp only [resolveNode]
      cases h : childNamed s es with
      | none => simp
      | some c => simpa using ih c

theorem childNamed_mem {name : String} {c : FSNode} :
    ∀ {es : List (String × FSNode)}, childNamed name es = some c →
      (name, c) ∈ es := by
  intro es
  induction es with
  | nil => intro h; simp [childNamed] at h
  | cons e rest ih =>
    obtain ⟨e1, e2⟩ := e
    intro h
    simp only [childNamed] at h
    by_cases he : e1 = name
    · subst he
      rw [if_pos rfl] at h
      cases h
      exact List.mem_cons_self _ _
    · rw [if_neg he] at h
      exact List.mem_cons_of_mem _ (ih h)

theorem mem_childNamed {name : String} {c : FSNode} :
    ∀ {es : List (String × FSNode)}, NamesOk es → (name, c) ∈ es →
      childNamed name es = some c := by
  intro es
  induction es with
  | nil => intro _ h; simp at h
  | cons e rest ih =>
    obtain ⟨e1, e2⟩ := e
    intro hok hmem
    have hnd : e1 ∉ rest.map Prod.fst ∧ (rest.map Prod.fst).Nodup := by
      have := hok.2
      simp only [List.map_cons] at this
      exact List.nodup_cons.mp this
    rcases List.mem_cons.mp hmem with heq | htail
    · have h1 : name = e1 := congrArg Prod.fst heq
      have h2 : c = e2 := congrArg Prod.snd heq
      subst h1; subst h2
      simp [childNamed]
    · have hne : e1 ≠ name := by
        intro h
        subst h
        exact hnd.1 (List.mem_map.mpr ⟨(e1, c), htail, rfl⟩)
      rw [childNamed, if_neg hne]
      exact ih ⟨fun x hx => hok.1 x (List.mem_cons_of_mem _ hx), hnd.2⟩ htail

theorem resolve_wf : ∀ (segs : List String) (n m : FSNode), Wf n →
    resolveNode n segs = some m → Wf m := by
  intro segs
  induction segs with
  | nil =>
    intro n m hw h
    simp only [resolveNode] at h
    cases h
    exact hw
  | cons s rest ih =>
    intro n m hw h
    cases n with
    | file sz => simp [resolveNode] at h
    | dir es =>
      simp only [resolveNode] at h
      cases hc : childNamed s es with
      | none => rw [hc] at h; simp at h
      | some c =>
        rw [hc] at h
        have hcw : Wf c := by
          cases hw with
          | dir es hn hch => exact hch _ (childNamed_mem hc)
        exact ih c m hcw h

theorem resolve_valid : ∀ (segs : List String) (n m : FSNode), Wf n →
    resolveNode n segs = some m → ValidSegs segs := by
  intro segs
  induction segs with
  | nil => intro n m _ _ x hx; simp at hx
  | cons s rest ih =>
    intro n m hw h
    cases n with
    | file sz => simp [resolveNode] at h
    | dir es =>
      simp only [resolveNode] at h
      cases hc : childNamed s es with
      | none => rw [hc] at h; simp at h
      | some c =>
        rw [hc] at h
        have hmem := childNamed_mem hc
        obtain ⟨hn, hch⟩ : NamesOk es ∧ ∀ e ∈ es, Wf e.2 := by
          cases hw with
          | dir es hn hch => exact ⟨hn, hch⟩
        have hvs : ValidName s := hn.1 _ hmem
        have hrest := ih c m (hch _ hmem) h
        intro x hx
        rcases List.mem_cons.mp hx with h1 | h2
        · subst h1; exact hvs
        · exact hrest x h2

theorem wf_dir_elim {es : List (String × FSNode)} (h : Wf (.dir es)) :
    NamesOk es ∧ ∀ e ∈ es, Wf e.2 := by
  cases h with
  | dir es hn hc => exact ⟨hn, hc⟩

/-! ## One listing task: from `listingOf` to `childFiles`/`childDirs` -/

theorem partitionItems_entries {f : List String} (hvf : ValidSegs f) :
    ∀ (es : List (String × FSNode)), (∀ e ∈ es, ValidName e.1) →
      partitionItems (pathOf f)
        (es.map (fun e => ⟨e.1, nodeIsDir e.2, nodeSize e.2⟩)) =
        (childFiles f es, (childDirs f es).map pathOf) := by
  intro es
  induction es with
  | nil => intro _; rfl
  | cons e rest ih =>
    obtain ⟨name, c⟩ := e
    intro hv
    have hvn : ValidName name := hv (name, c) (by simp)
    have hrest := ih (fun x hx => hv x (List.mem_cons_of_mem _ hx))
    have hvfn : ValidSegs (f ++ [name]) := by
      intro x hx
      rcases List.mem_append.mp hx with h1 | h2
      · exact hvf x h1
      · have : x = name := by simpa using h2
        subst this; exact hvn
    have hne : ¬ (name = "." ∨ name = "..") := by
      rintro (h | h)
      · exact hvn.2.2.1 h
      · exact hvn.2.2.2 h
    have hfull : fullPathOf (pathOf f) name = pathOf (f ++ [name]) :=
      fullPathOf_eq hvfn
    cases c with
    | file sz =>
      rw [List.map_cons]
      show partitionItems (pathOf f)
          ((⟨name, false, sz⟩ : Item) ::
            rest.map (fun e => ⟨e.1, nodeIsDir e.2, nodeSize e.2⟩)) = _
      simp only [partitionItems, hrest]
      simp [childFiles, childDirs, List.filterMap_cons, hfull, hne]
    | dir es2 =>
      rw [List.map_cons]
      show partitionItems (pathOf f)
          ((⟨name, true, 0⟩ : Item) ::
            rest.map (fun e => ⟨e.1, nodeIsDir e.2, nodeSize e.2⟩)) = _
      simp only [partitionItems, hrest]
      simp [childFiles, childDirs, List.filterMap_cons, hfull, hne]

theorem partitionItems_listing {f : List String} (hvf : ValidSegs f)
    {es : List (String × FSNode)} (hok : NamesOk es) :
    partitionItems (pathOf f) (listingOf es) =
      (childFiles f es, (childDirs f es).map pathOf) := by
  have h1 : partitionItems (pathOf f) (listingOf es) =
      partitionItems (pathOf f)
        (es.map (fun e => ⟨e.1, nodeIsDir e.2, nodeSize e.2⟩)) := by
    simp [listingOf, partitionItems]
  rw [h1]
  exact partitionItems_entries hvf es hok.1

theorem fetch_ok {root : FSNode} {bad : String → Bool} {f : List String}
    {es : List (String × FSNode)} (hwf : Wf root) (hvf : ValidSegs f)
    (hres : resolveNode root f = some (.dir es))
    (hbad : bad (pathOf f) = false) :
    fetch_path_contents root bad (pathOf f) =
      .ok (childFiles f es, (childDirs f es).map pathOf) := by
  have hok : NamesOk es := (wf_dir_elim (resolve_wf f root _ hwf hres)).1
  unfold fetch_path_contents listPath
  rw [parsePath_pathOf f hvf, hbad, hres]
  simp [partitionItems_listing hvf hok]

theorem fetch_bad {root : FSNode} {bad : String → Bool} {p : String}
    (hbad : bad p = true) :
    fetch_path_contents root bad p = .error () := by
  unfold fetch_path_contents listPath
  rw [hbad]
  simp

theorem mem_levelFiles {root : FSNode} {bad : String → Bool}
    {e : String × Nat} : ∀ {ps : List String},
    (e ∈ levelFiles root bad ps ↔
      ∃ p ∈ ps, e ∈ resultFiles (fetch_path_contents root bad p)) := by
  intro ps
  induction ps with
  | nil => simp [levelFiles]
  | cons p ps ih => simp [levelFiles, List.mem_append, ih]

theorem mem_levelDirs {root : FSNode} {bad : String → Bool}
    {q : String} : ∀ {ps : List String},
    (q ∈ levelDirs root bad ps ↔
      ∃ p ∈ ps, q ∈ resultDirs (fetch_path_contents root bad p)) := by
  intro ps
  induction ps with
  | nil => simp [levelDirs]
  | cons p ps ih => simp [levelDirs, List.mem_append, ih]

/-! ## Frontier-level characterization of one walk level -/

theorem mem_childFiles {f : List String} {es : List (String × FSNode)}
    {e : String × Nat} (h : e ∈ childFiles f es) :
    ∃ n sz, (n, FSNode.file sz) ∈ es ∧ e = (pathOf (f ++ [n]), sz) := by
  obtain ⟨a, ha, hfa⟩ := List.mem_filterMap.mp h
  obtain ⟨n, c⟩ := a
  cases c with
  | file sz =>
    refine ⟨n, sz, ha, ?_⟩
    have : some (pathOf (f ++ [n]), sz) = some e := hfa
    cases this
    rfl
  | dir es2 => simp at hfa

theorem childFiles_mem {f : List String} {es : List (String × FSNode)}
    {n : String} {sz : Nat} (h : (n, FSNode.file sz) ∈ es) :
    (pathOf (f ++ [n]), sz) ∈ childFiles f es :=
  List.mem_filterMap.mpr ⟨(n, .file sz), h, rfl⟩

theorem mem_childDirs {f : List String} {es : List (String × FSNode)}
    {q : List String} (h : q ∈ childDirs f es) :
    ∃ n es2, (n, FSNode.dir es2) ∈ es ∧ q = f ++ [n] := by
  obtain ⟨a, ha, hfa⟩ := List.mem_filterMap.mp h
  obtain ⟨n, c⟩ := a
  cases c with
  | file sz => simp at hfa
  | dir es2 =>
    refine ⟨n, es2, ha, ?_⟩
    have : some (f ++ [n]) = some q := hfa
    cases this
    rfl

theorem childDirs_mem {f : List String} {es : List (String × FSNode)}
    {n : String} {es2 : List (String × FSNode)}
    (h : (n, FSNode.dir es2) ∈ es) : (f ++ [n]) ∈ childDirs f es :=
  List.mem_filterMap.mpr ⟨(n, .dir es2), h, rfl⟩

theorem child_extend {root : FSNode} {f : List String}
    {es : List (String × FSNode)} {n : String} {c : FSNode}
    (hwf : Wf root) (hvf : ValidSegs f)
    (hres : resolveNode root f = some (.dir es)) (hmem : (n, c) ∈ es) :
    ValidSegs (f ++ [n]) ∧ resolveNode root (f ++ [n]) = some c := by
  have hok := (wf_dir_elim (resolve_wf f root _ hwf hres)).1
  have hvn : ValidName n := hok.1 _ hmem
  constructor
  · intro x hx
    rcases List.mem_append.mp hx with h1 | h2
    · exact hvf x h1
    · have hx2 : x = n := by simpa using h2
      subst hx2; exact hvn
  · rw [resolveNode_append, hres]
    show resolveNode (.dir es) [n] = some c
    simp only [resolveNode, mem_childNamed hok hmem]

theorem goodChain_extend {bad : String → Bool} {f : List String} {n : String}
    (hchain : goodChain bad f) (hb : bad (pathOf f) = false) :
    goodChain bad (f ++ [n]) := by
  intro k hk
  have hlen : (f ++ [n]).length = f.length + 1 := by simp
  rw [hlen] at hk
  rcases Nat.lt_succ_iff_lt_or_eq.mp hk with h1 | h1
  · rw [List.take_append_of_le_length (Nat.le_of_lt h1)]
    exact hchain k h1
  · subst h1
    rw [List.take_left]
    exact hb

theorem nodup_childFiles {f : List String} (hvf : ValidSegs f) :
    ∀ {es : List (String × FSNode)}, NamesOk es →
    ((childFiles f es).map Prod.fst).Nodup := by
  intro es
  induction es with
  | nil => intro _; simp [childFiles]
  | cons e rest ih =>
    obtain ⟨n, c⟩ := e
    intro hok
    have hvn : ValidName n := hok.1 (n, c) (by simp)
    have hnd : n ∉ rest.map Prod.fst ∧ (rest.map Prod.fst).Nodup := by
      have := hok.2
      simp only [List.map_cons] at this
      exact List.nodup_cons.mp this
    have hok2 : NamesOk rest :=
      ⟨fun x hx => hok.1 x (List.mem_cons_of_mem _ hx), hnd.2⟩
    have hvfx : ∀ (m : String), ValidName m → ValidSegs (f ++ [m]) := by
      intro m hm x hx
      rcases List.mem_append.mp hx with h1 | h2
      · exact hvf x h1
      · have : x = m := by simpa using h2
        subst this; exact hm
    cases c with
    | dir es2 =>
      show ((childFiles f ((n, FSNode.dir es2) :: rest)).map Prod.fst).Nodup
      simp only [childFiles, List.filterMap_cons]
      exact ih hok2
    | file sz =>
      show ((childFiles f ((n, FSNode.file sz) :: rest)).map Prod.fst).Nodup
      simp only [childFiles, List.filterMap_cons, List.map_cons]
      refine List.nodup_cons.mpr ⟨?_, ih hok2⟩
      intro hmem
      obtain ⟨e2, he2, hfst⟩ := List.mem_map.mp hmem
      obtain ⟨n2, sz2, hn2, rfl⟩ := mem_childFiles he2
      have heq : f ++ [n2] = f ++ [n] :=
        pathOf_inj (hvfx n2 (hok2.1 _ hn2)) (hvfx n hvn) hfst
      have : n2 = n := by
        have := List.append_cancel_left heq
        simpa using this
      subst this
      exact hnd.1 (List.mem_map.mpr ⟨(n2, .file sz2), hn2, rfl⟩)

theorem nodup_childDirs {f : List String} (hvf : ValidSegs f) :
    ∀ {es : List (String × FSNode)}, NamesOk es →
    ((childDirs f es).map pathOf).Nodup := by
  intro es
  induction es with
  | nil => intro _; simp [childDirs]
  | cons e rest ih =>
    obtain ⟨n, c⟩ := e
    intro hok
    have hvn : ValidName n := hok.1 (n, c) (by simp)
    have hnd : n ∉ rest.map Prod.fst ∧ (rest.map Prod.fst).Nodup := by
      have := hok.2
      simp only [List.map_cons] at this
      exact List.nodup_cons.mp this
    have hok2 : NamesOk rest :=
      ⟨fun x hx => hok.1 x (List.mem_cons_of_mem _ hx), hnd.2⟩
    have hvfx : ∀ (m : String), ValidName m → ValidSegs (f ++ [m]) := by
      intro m hm x hx
      rcases List.mem_append.mp hx with h1 | h2
      · exact hvf x h1
      · have : x = m := by simpa using h2
        subst this; exact hm
    cases c with
    | file sz =>
      show ((childDirs f ((n, FSNode.file sz) :: rest)).map pathOf).Nodup
      simp only [childDirs, List.filterMap_cons]
      exact ih hok2
    | dir es2 =>
      show ((childDirs f ((n, FSNode.dir es2) :: rest)).map pathOf).Nodup
      simp only [childDirs, List.filterMap_cons, List.map_cons]
      refine List.nodup_cons.mpr ⟨?_, ih hok2⟩
      intro hmem
      obtain ⟨q, hq, hpq⟩ := List.mem_map.mp hmem
      obtain ⟨n2, es3, hn2, rfl⟩ := mem_childDirs hq
      have heq : f ++ [n2] = f ++ [n] :=
        pathOf_inj (hvfx n2 (hok2.1 _ hn2)) (hvfx n hvn) hpq
      have : n2 = n := by
        have := List.append_cancel_left heq
        simpa using this
      subst this
      exact hnd.1 (List.mem_map.mpr ⟨(n2, .dir es3), hn2, rfl⟩)

theorem fetch_cases {root : FSNode} {bad : String → Bool} {f : List String}
    (hwf : Wf root) (hvf : ValidSegs f) :
    (resultFiles (fetch_path_contents root bad (pathOf f)) = [] ∧
      resultDirs (fetch_path_contents root bad (pathOf f)) = []) ∨
    (∃ es, resolveNode root f = some (.dir es) ∧ bad (pathOf f) = false ∧
      resultFiles (fetch_path_contents root bad (pathOf f)) = childFiles f es ∧
      resultDirs (fetch_path_contents root bad (pathOf f)) =
        (childDirs f es).map pathOf) := by
  by_cases hbad : bad (pathOf f) = true
  · left
    rw [fetch_bad hbad]
    exact ⟨rfl, rfl⟩
  · have hb : bad (pathOf f) = false := by simpa using hbad
    cases hres : resolveNode root f with
    | none =>
      left
      have herr : fetch_path_contents root bad (pathOf f) = .error () := by
        unfold fetch_path_contents listPath
        rw [parsePath_pathOf f hvf, hb, hres]
        simp
      rw [herr]
      exact ⟨rfl, rfl⟩
    | some m =>
      cases m with
      | file sz =>
        left
        have herr : fetch_path_contents root bad (pathOf f) = .error () := by
          unfold fetch_path_contents listPath
          rw [parsePath_pathOf f hvf, hb, hres]
          simp
        rw [herr]
        exact ⟨rfl, rfl⟩
      | dir es =>
        right
        refine ⟨es, rfl, hb, ?_, ?_⟩ <;> rw [fetch_ok hwf hvf hres hb] <;> rfl

theorem levelFiles_char {root : FSNode} {bad : String → Bool} {lvl : Nat}
    {frontier ps : List String} (hwf : Wf root)
    (hinv : FrontierInv root bad lvl frontier) (hperm : ps.Perm frontier)
    {e : String × Nat} :
    e ∈ levelFiles root bad ps ↔
      ∃ f es n sz, pathOf f ∈ frontier ∧ f.length = lvl ∧ ValidSegs f ∧
        goodChain bad f ∧ bad (pathOf f) = false ∧
        resolveNode root f = some (.dir es) ∧ (n, FSNode.file sz) ∈ es ∧
        e = (pathOf (f ++ [n]), sz) := by
  rw [mem_levelFiles]
  constructor
  · rintro ⟨p, hp, he⟩
    have hpf := hperm.mem_iff.mp hp
    obtain ⟨f, rfl, hlen, hvf, ⟨es, hres⟩, hchain⟩ := hinv.2 p hpf
    rcases @fetch_cases root bad f hwf hvf with ⟨hf0, _⟩ | ⟨es2, hres2, hb, hfi, _⟩
    · rw [hf0] at he
      simp at he
    · rw [hfi] at he
      obtain ⟨n, sz, hmem, rfl⟩ := mem_childFiles he
      exact ⟨f, es2, n, sz, hpf, hlen, hvf, hchain, hb, hres2, hmem, rfl⟩
  · rintro ⟨f, es, n, sz, hpf, hlen, hvf, hchain, hb, hres, hmem, rfl⟩
    refine ⟨pathOf f, hperm.mem_iff.mpr hpf, ?_⟩
    have hfi : resultFiles (fetch_path_contents root bad (pathOf f)) =
        childFiles f es := by
      rw [fetch_ok hwf hvf hres hb]; rfl
    rw [hfi]
    exact childFiles_mem hmem

theorem levelDirs_char {root : FSNode} {bad : String → Bool} {lvl : Nat}
    {frontier ps : List String} (hwf : Wf root)
    (hinv : FrontierInv root bad lvl frontier) (hperm : ps.Perm frontier)
    {q : String} :
    q ∈ levelDirs root bad ps ↔
      ∃ f es n es2, pathOf f ∈ frontier ∧ f.length = lvl ∧ ValidSegs f ∧
        goodChain bad f ∧ bad (pathOf f) = false ∧
        resolveNode root f = some (.dir es) ∧ (n, FSNode.dir es2) ∈ es ∧
        q = pathOf (f ++ [n]) := by
  rw [mem_levelDirs]
  constructor
  · rintro ⟨p, hp, hq⟩
    have hpf := hperm.mem_iff.mp hp
    obtain ⟨f, rfl, hlen, hvf, ⟨es, hres⟩, hchain⟩ := hinv.2 p hpf
    rcases @fetch_cases root bad f hwf hvf with ⟨_, hd0⟩ | ⟨es2, hres2, hb, _, hdi⟩
    · rw [hd0] at hq
      simp at hq
    · rw [hdi] at hq
      obtain ⟨q2, hq2, rfl⟩ := List.mem_map.mp hq
      obtain ⟨n, es3, hmem, rfl⟩ := mem_childDirs hq2
      exact ⟨f, es2, n, es3, hpf, hlen, hvf, hchain, hb, hres2, hmem, rfl⟩
  · rintro ⟨f, es, n, es2, hpf, hlen, hvf, hchain, hb, hres, hmem, rfl⟩
    refine ⟨pathOf f, hperm.mem_iff.mpr hpf, ?_⟩
    have hdi : resultDirs (fetch_path_contents root bad (pathOf f)) =
        (childDirs f es).map pathOf := by
      rw [fetch_ok hwf hvf hres hb]; rfl
    rw [hdi]
    exact List.mem_map.mpr ⟨f ++ [n], childDirs_mem hmem, rfl⟩

theorem nodup_levelFiles {root : FSNode} {bad : String → Bool} {lvl : Nat} :
    ∀ {ps : List String}, Wf root → ps.Nodup →
    (∀ p ∈ ps, ∃ f, p = pathOf f ∧ f.length = lvl ∧ ValidSegs f) →
    ((levelFiles root bad ps).map Prod.fst).Nodup := by
  intro ps
  induction ps with
  | nil => intro _ _ _; simp [levelFiles]
  | cons p ps ih =>
    intro hwf hnd hpt
    obtain ⟨f, rfl, hlen, hvf⟩ := hpt p (by simp)
    have hnd2 := List.nodup_cons.mp hnd
    have hrest := ih hwf hnd2.2 (fun x hx => hpt x (List.mem_cons_of_mem _ hx))
    show ((levelFiles root bad (pathOf f :: ps)).map Prod.fst).Nodup
    simp only [levelFiles, List.map_append]
    refine List.Nodup.append ?_ hrest ?_
    · rcases @fetch_cases root bad f hwf hvf with ⟨hf0, _⟩ | ⟨es, hres, hb, hfi, _⟩
      · rw [hf0]; simp
      · rw [hfi]
        exact nodup_childFiles hvf (wf_dir_elim (resolve_wf f root _ hwf hres)).1
    · intro x hx1 hx2
      obtain ⟨e1, he1, rfl⟩ := List.mem_map.mp hx1
      obtain ⟨e2, he2, hfst⟩ := List.mem_map.mp hx2
      rcases @fetch_cases root bad f hwf hvf with ⟨hf0, _⟩ | ⟨es, hres, hb, hfi, _⟩
      · rw [hf0] at he1; simp at he1
      · rw [hfi] at he1
        obtain ⟨n, sz, hmem, rfl⟩ := mem_childFiles he1
        obtain ⟨p2, hp2, he2f⟩ := mem_levelFiles.mp he2
        obtain ⟨f2, rfl, hlen2, hvf2⟩ := hpt p2 (List.mem_cons_of_mem _ hp2)
        rcases @fetch_cases root bad f2 hwf hvf2 with ⟨hf02, _⟩ | ⟨es2, hres2, hb2, hfi2, _⟩
        · rw [hf02] at he2f; simp at he2f
        · rw [hfi2] at he2f
          obtain ⟨n2, sz2, hmem2, rfl⟩ := mem_childFiles he2f
          have hvfn : ValidSegs (f ++ [n]) :=
            (child_extend hwf hvf hres hmem).1
          have hvfn2 : ValidSegs (f2 ++ [n2]) :=
            (child_extend hwf hvf2 hres2 hmem2).1
          have hp : pathOf (f2 ++ [n2]) = pathOf (f ++ [n]) := by
            simpa using hfst
          have heq : f2 ++ [n2] = f ++ [n] := pathOf_inj hvfn2 hvfn hp
          have hflen : f2.length = f.length := by rw [hlen, hlen2]
          have hff : f2 = f := (List.append_inj heq hflen).1
          subst hff
          exact hnd2.1 hp2

theorem nodup_levelDirs {root : FSNode} {bad : String → Bool} {lvl : Nat} :
    ∀ {ps : List String}, Wf root → ps.Nodup →
    (∀ p ∈ ps, ∃ f, p = pathOf f ∧ f.length = lvl ∧ ValidSegs f) →
    (levelDirs root bad ps).Nodup := by
  intro ps
  induction ps with
  | nil => intro _ _ _; simp [levelDirs]
  | cons p ps ih =>
    intro hwf hnd hpt
    obtain ⟨f, rfl, hlen, hvf⟩ := hpt p (by simp)
    have hnd2 := List.nodup_cons.mp hnd
    have hrest := ih hwf hnd2.2 (fun x hx => hpt x (List.mem_cons_of_mem _ hx))
    show (levelDirs root bad (pathOf f :: ps)).Nodup
    simp only [levelDirs]
    refine List.Nodup.append ?_ hrest ?_
    · rcases @fetch_cases root bad f hwf hvf with ⟨_, hd0⟩ | ⟨es, hres, hb, _, hdi⟩
      · rw [hd0]; simp
      · rw [hdi]
        exact nodup_childDirs hvf (wf_dir_elim (resolve_wf f root _ hwf hres)).1
    · intro x hx1 hx2
      rcases @fetch_cases root bad f hwf hvf with ⟨_, hd0⟩ | ⟨es, hres, hb, _, hdi⟩
      · rw [hd0] at hx1; simp at hx1
      · rw [hdi] at hx1
        obtain ⟨q1, hq1, rfl⟩ := List.mem_map.mp hx1
        obtain ⟨n, es3, hmem, rfl⟩ := mem_childDirs hq1
        obtain ⟨p2, hp2, hx2f⟩ := mem_levelDirs.mp hx2
        obtain ⟨f2, rfl, hlen2, hvf2⟩ := hpt p2 (List.mem_cons_of_mem _ hp2)
        rcases @fetch_cases root bad f2 hwf hvf2 with ⟨_, hd02⟩ | ⟨es2, hres2, hb2, _, hdi2⟩
        · rw [hd02] at hx2f; simp at hx2f
        · rw [hdi2] at hx2f
          obtain ⟨q2, hq2, hpq⟩ := List.mem_map.mp hx2f
          obtain ⟨n2, es4, hmem2, rfl⟩ := mem_childDirs hq2
          have hvfn : ValidSegs (f ++ [n]) :=
            (child_extend hwf hvf hres hmem).1
          have hvfn2 : ValidSegs (f2 ++ [n2]) :=
            (child_extend hwf hvf2 hres2 hmem2).1
          have heq : f2 ++ [n2] = f ++ [n] := pathOf_inj hvfn2 hvfn hpq
          have hflen : f2.length = f.length := by rw [hlen, hlen2]
          have hff : f2 = f := (List.append_inj heq hflen).1
          subst hff
          exact hnd2.1 hp2

theorem step_inv {root : FSNode} {bad : String → Bool} {lvl : Nat}
    {frontier ps : List String} (hwf : Wf root)
    (hinv : FrontierInv root bad lvl frontier) (hperm : ps.Perm frontier) :
    FrontierInv root bad (lvl + 1) (levelDirs root bad ps) := by
  constructor
  · refine @nodup_levelDirs root bad lvl ps hwf (hperm.nodup_iff.mpr hinv.1) ?_
    intro p hp
    obtain ⟨f, hfeq, hlen, hvf, _, _⟩ := hinv.2 p (hperm.mem_iff.mp hp)
    exact ⟨f, hfeq, hlen, hvf⟩
  · intro q hq
    rw [levelDirs_char hwf hinv hperm] at hq
    obtain ⟨f, es, n, es2, hpf, hlen, hvf, hchain, hb, hres, hmem, rfl⟩ := hq
    obtain ⟨hvfn, hresn⟩ := child_extend hwf hvf hres hmem
    refine ⟨f ++ [n], rfl, by simp [hlen], hvfn, ⟨es2, hresn⟩, ?_⟩
    exact goodChain_extend hchain hb

/-! ## The frontier loop: soundness, completeness and termination -/

theorem buildLoop_step {root : FSNode} {bad : String → Bool}
    {sched : Nat → List String → List String} {lvl fu : Nat}
    {frontier : List String} (hemp : frontier.isEmpty = false) :
    buildLoop root bad sched lvl (fu + 1) frontier =
      (levelFiles root bad (sched lvl frontier) ++
        (buildLoop root bad sched (lvl + 1) fu
          (levelDirs root bad (sched lvl frontier))).1,
       (buildLoop root bad sched (lvl + 1) fu
          (levelDirs root bad (sched lvl frontier))).2) := by
  rcases hbl : buildLoop root bad sched (lvl + 1) fu
      (levelDirs root bad (sched lvl frontier)) with ⟨more, rem⟩
  simp [buildLoop, hemp, hbl]

theorem buildLoop_fwd {root : FSNode} {bad : String → Bool}
    {sched : Nat → List String → List String} (hwf : Wf root)
    (hs : ValidSched sched) :
    ∀ (fuel lvl : Nat) (frontier : List String),
    FrontierInv root bad lvl frontier →
    (∀ e ∈ (buildLoop root bad sched lvl fuel frontier).1,
      ∃ segs sz, lvl < segs.length ∧ ValidSegs segs ∧ goodChain bad segs ∧
        fileAt root segs sz ∧ e = (pathOf segs, sz)) ∧
    ((buildLoop root bad sched lvl fuel frontier).1.map Prod.fst).Nodup := by
  intro fuel
  induction fuel with
  | zero => intro lvl frontier _; simp [buildLoop]
  | succ fu ih =>
    intro lvl frontier hinv
    cases hemp : frontier.isEmpty with
    | true => simp [buildLoop, hemp]
    | false =>
      have hperm := hs lvl frontier
      have hinv2 := step_inv hwf hinv hperm
      have ihm := ih (lvl + 1) (levelDirs root bad (sched lvl frontier)) hinv2
      rw [buildLoop_step hemp]
      constructor
      · intro e he
        rcases List.mem_append.mp he with h1 | h2
        · rw [levelFiles_char hwf hinv hperm] at h1
          obtain ⟨f, es, n, sz, _, hlen, hvf, hchain, hb, hres, hmem, rfl⟩ := h1
          obtain ⟨hvfn, hresn⟩ := child_extend hwf hvf hres hmem
          refine ⟨f ++ [n], sz, by simp [hlen], hvfn, ?_, hresn, rfl⟩
          exact goodChain_extend hchain hb
        · obtain ⟨segs, sz, hl, hv, hg, hf, he2⟩ := ihm.1 e h2
          exact ⟨segs, sz, Nat.lt_of_succ_lt hl, hv, hg, hf, he2⟩
      · rw [List.map_append]
        refine List.Nodup.append ?_ ihm.2 ?_
        · refine @nodup_levelFiles root bad lvl (sched lvl frontier) hwf
            (hperm.nodup_iff.mpr hinv.1) ?_
          intro p hp
          obtain ⟨f, hfeq, hlen, hvf, _, _⟩ := hinv.2 p (hperm.mem_iff.mp hp)
          exact ⟨f, hfeq, hlen, hvf⟩
        · intro x hx1 hx2
          obtain ⟨e1, he1, rfl⟩ := List.mem_map.mp hx1
          obtain ⟨e2, he2, hfst⟩ := List.mem_map.mp hx2
          rw [levelFiles_char hwf hinv hperm] at he1
          obtain ⟨f, es, n, sz, _, hlen, hvf, _, _, hres, hmem, rfl⟩ := he1
          obtain ⟨segs, sz2, hl, hv, _, _, rfl⟩ := ihm.1 e2 he2
          have hvfn : ValidSegs (f ++ [n]) :=
            (child_extend hwf hvf hres hmem).1
          have hp : pathOf segs = pathOf (f ++ [n]) := by simpa using hfst
          have heq : segs = f ++ [n] := pathOf_inj hv hvfn hp
          have hlen2 : (f ++ [n]).length = lvl + 1 := by simp [hlen]
          rw [heq, hlen2] at hl
          omega

theorem buildLoop_bwd {root : FSNode} {bad : String → Bool}
    {sched : Nat → List String → List String} (hwf : Wf root)
    (hs : ValidSched sched) :
    ∀ (fuel lvl : Nat) (frontier : List String),
    FrontierInv root bad lvl frontier →
    (buildLoop root bad sched lvl fuel frontier).2 = [] →
    ∀ (f ext : List String) (sz : Nat), pathOf f ∈ frontier →
      f.length = lvl → ValidSegs f → ext ≠ [] →
      fileAt root (f ++ ext) sz →
      (∀ k, lvl ≤ k → k < (f ++ ext).length →
        bad (pathOf ((f ++ ext).take k)) = false) →
      (pathOf (f ++ ext), sz) ∈ (buildLoop root bad sched lvl fuel frontier).1 := by
  intro fuel
  induction fuel with
  | zero =>
    intro lvl frontier _ hrem f ext sz hpf _ _ _ _ _
    simp only [buildLoop] at hrem
    rw [hrem] at hpf
    simp at hpf
  | succ fu ih =>
    intro lvl frontier hinv hrem f ext sz hpf hlen hvf hext hfile hchain
    cases hemp : frontier.isEmpty with
    | true =>
      rw [List.isEmpty_iff.mp hemp] at hpf
      simp at hpf
    | false =>
      have hperm := hs lvl frontier
      rw [buildLoop_step hemp] at hrem ⊢
      obtain ⟨f2, hf2eq, hlen2, hvf2, ⟨es, hres⟩, hchain2⟩ := hinv.2 _ hpf
      have hff : f2 = f := pathOf_inj hvf2 hvf hf2eq.symm
      subst hff
      have hb : bad (pathOf f2) = false := by
        have hlt : f2.length < (f2 ++ ext).length := by
          simp only [List.length_append]
          cases ext with
          | nil => exact absurd rfl hext
          | cons a l => simp
        have := hchain f2.length (Nat.le_of_eq hlen.symm) hlt
        rw [List.take_left] at this
        exact this
      cases ext with
      | nil => exact absurd rfl hext
      | cons n ext2 =>
        have hstep : ∃ c, childNamed n es = some c ∧
            resolveNode c ext2 = some (.file sz) := by
          have h1 := resolveNode_append f2 (n :: ext2) root
          rw [hres] at h1
          have h2 : resolveNode (FSNode.dir es) (n :: ext2) = some (.file sz) :=
            h1.symm.trans hfile
          simp only [resolveNode] at h2
          cases hc : childNamed n es with
          | none => rw [hc] at h2; simp at h2
          | some c => rw [hc] at h2; exact ⟨c, rfl, h2⟩
        obtain ⟨c, hc, hcres⟩ := hstep
        have hcmem := childNamed_mem hc
        obtain ⟨hvfn, hresn⟩ := child_extend hwf hvf2 hres hcmem
        cases ext2 with
        | nil =>
          have hcf : c = .file sz := by
            simp only [resolveNode] at hcres
            exact Option.some.inj hcres
          subst hcf
          refine List.mem_append.mpr (Or.inl ?_)
          rw [levelFiles_char hwf hinv hperm]
          exact ⟨f2, es, n, sz, hpf, hlen, hvf2, hchain2, hb, hres, hcmem, rfl⟩
        | cons m ext3 =>
          cases c with
          | file sz2 => simp [resolveNode] at hcres
          | dir es2 =>
            have hqmem : pathOf (f2 ++ [n]) ∈
                levelDirs root bad (sched lvl frontier) := by
              rw [levelDirs_char hwf hinv hperm]
              exact ⟨f2, es, n, es2, hpf, hlen, hvf2, hchain2, hb, hres,
                hcmem, rfl⟩
            have happ : (f2 ++ [n]) ++ (m :: ext3) = f2 ++ (n :: m :: ext3) := by
              simp
            have hres3 : fileAt root ((f2 ++ [n]) ++ (m :: ext3)) sz := by
              rw [happ]; exact hfile
            have hchain3 : ∀ k, lvl + 1 ≤ k →
                k < ((f2 ++ [n]) ++ m :: ext3).length →
                bad (pathOf (((f2 ++ [n]) ++ m :: ext3).take k)) = false := by
              intro k hk1 hk2
              rw [happ] at hk2 ⊢
              exact hchain k (Nat.le_of_succ_le hk1) hk2
            have hmem2 := ih (lvl + 1) (levelDirs root bad (sched lvl frontier))
              (step_inv hwf hinv hperm) hrem (f2 ++ [n]) (m :: ext3) sz hqmem
              (by simp [hlen]) hvfn (by simp) hres3 hchain3
            refine List.mem_append.mpr (Or.inr ?_)
            rw [happ] at hmem2
            exact hmem2

theorem buildLoop_complete {root : FSNode} {bad : String → Bool}
    {sched : Nat → List String → List String} (hwf : Wf root)
    (hs : ValidSched sched) :
    ∀ (m fuel lvl : Nat) (frontier : List String),
    FrontierInv root bad lvl frontier →
    (∀ p ∈ frontier, ∀ (f : List String) (es : List (String × FSNode)),
      p = pathOf f → ValidSegs f → resolveNode root f = some (.dir es) →
      sizeOf (FSNode.dir es) ≤ m) →
    m + 1 ≤ fuel →
    (buildLoop root bad sched lvl fuel frontier).2 = [] := by
  intro m
  induction m with
  | zero =>
    intro fuel lvl frontier hinv hsize hfuel
    have hfe : frontier = [] := by
      by_contra hne
      obtain ⟨p, hp⟩ := List.exists_mem_of_ne_nil frontier hne
      obtain ⟨f, hfeq, _, hvf, ⟨es, hres⟩, _⟩ := hinv.2 p hp
      have h1 := hsize p hp f es hfeq hvf hres
      have h2 : 1 ≤ sizeOf (FSNode.dir es) := by
        rw [FSNode.dir.sizeOf_spec]
        omega
      omega
    subst hfe
    cases fuel with
    | zero => omega
    | succ fu => simp [buildLoop]
  | succ m ihm =>
    intro fuel lvl frontier hinv hsize hfuel
    cases fuel with
    | zero => omega
    | succ fu =>
      cases hemp : frontier.isEmpty with
      | true => simp [buildLoop, hemp]
      | false =>
        have hperm := hs lvl frontier
        rw [buildLoop_step hemp]
        have hsize2 : ∀ q ∈ levelDirs root bad (sched lvl frontier),
            ∀ (g : List String) (es2 : List (String × FSNode)),
            q = pathOf g → ValidSegs g →
            resolveNode root g = some (.dir es2) →
            sizeOf (FSNode.dir es2) ≤ m := by
          intro q hq g es2 hqeq hvg hresg
          rw [levelDirs_char hwf hinv hperm] at hq
          obtain ⟨f, es, n, es3, hpf, hlen, hvf, _, _, hres, hmem, rfl⟩ := hq
          obtain ⟨hvfn, hresn⟩ := child_extend hwf hvf hres hmem
          have hg : g = f ++ [n] := pathOf_inj hvg hvfn hqeq.symm
          subst hg
          rw [hresn] at hresg
          have he23 : es3 = es2 := by
            have := Option.some.inj hresg
            cases this
            rfl
          subst he23
          have h1 := List.sizeOf_lt_of_mem hmem
          have h2 : sizeOf (FSNode.dir es3) < sizeOf (n, FSNode.dir es3) := by
            rw [Prod.mk.sizeOf_spec]
            omega
          have h3 : sizeOf es < sizeOf (FSNode.dir es) := by
            rw [FSNode.dir.sizeOf_spec]
            omega
          have h4 := hsize (pathOf f) hpf f es rfl hvf hres
          omega
        have := ihm fu (lvl + 1) (levelDirs root bad (sched lvl frontier))
          (step_inv hwf hinv hperm) hsize2 (by omega)
        exact this

theorem initial_inv (es_root : List (String × FSNode)) (bad : String → Bool) :
    FrontierInv (.dir es_root) bad 0 ["/"] := by
  constructor
  · simp
  · intro p hp
    have hp2 : p = "/" := by simpa using hp
    subst hp2
    refine ⟨[], rfl, rfl, ?_, ⟨es_root, rfl⟩, ?_⟩
    · intro x hx; simp at hx
    · intro k hk; simp at hk

/-- C3: for every share tree, a completed build (one whose frontier loop
ran until the frontier emptied) produces a cache holding exactly one
`(fullPath, size)` record per file reachable from the share root —
membership is equivalent to being the canonical slash-path of a file of
the tree with its actual size, paths are distinct, no directory is
recorded (only file nodes satisfy `fileAt`), and every recorded path is
a forward-slash path rooted at `/` — regardless of the per-task
completion order `sched` (the result is characterised without reference
to `sched`; the worker-pool width only bounds parallelism and does not
appear in the fan-out/fan-in result). -/
theorem claim_C3_index_completeness
    (es_root : List (String × FSNode)) (sched : Nat → List String → List String)
    (fuel : Nat) (hwf : Wf (.dir es_root)) (hs : ValidSched sched)
    (hdone : (build_cache_parallel (.dir es_root) (fun _ => false) sched
      fuel).2 = []) :
    (∀ p sz,
      (p, sz) ∈ (build_cache_parallel (.dir es_root) (fun _ => false) sched
        fuel).1 ↔
      ∃ segs, segs ≠ [] ∧ p = pathOf segs ∧ fileAt (.dir es_root) segs sz) ∧
    ((build_cache_parallel (.dir es_root) (fun _ => false) sched fuel).1.map
      Prod.fst).Nodup ∧
    (∀ e ∈ (build_cache_parallel (.dir es_root) (fun _ => false) sched fuel).1,
      e.1.data.head? = some '/') := by
  simp only [build_cache_parallel] at hdone ⊢
  have hinv := initial_inv es_root (fun _ => false)
  have hfwd := buildLoop_fwd hwf hs fuel 0 ["/"] hinv
  refine ⟨?_, hfwd.2, ?_⟩
  · intro p sz
    constructor
    · intro hmem
      obtain ⟨segs, sz2, hl, _, _, hf, he⟩ := hfwd.1 (p, sz) hmem
      have hp : p = pathOf segs := congrArg Prod.fst he
      have hsz : sz = sz2 := congrArg Prod.snd he
      refine ⟨segs, ?_, hp, ?_⟩
      · exact List.length_pos.mp hl
      · rw [hsz]; exact hf
    · rintro ⟨segs, hne, rfl, hfile⟩
      have hv : ValidSegs segs := resolve_valid segs _ _ hwf hfile
      have hbwd := buildLoop_bwd hwf hs fuel 0 ["/"] hinv hdone [] segs sz
        (by simp [pathOf]) rfl (fun x hx => absurd hx (List.not_mem_nil x))
        hne (by simpa using hfile) (fun k _ _ => rfl)
      simpa using hbwd
  · intro e he
    obtain ⟨segs, sz2, _, hv, _, _, he2⟩ := hfwd.1 e he
    rw [he2]
    exact pathOf_head hv

/-- Witness for C3 at the spec's example tree (`f1` at `/`, `b/f2`,
`b/c/f3`) with the identity completion order: the finished build's
frontier is empty and the record for `/b/f2` with size 20 is in the
cache. -/
theorem claim_C3_witness :
    Wf (FSNode.dir [("f1", FSNode.file 10),
      ("b", FSNode.dir [("f2", FSNode.file 20),
        ("c", FSNode.dir [("f3", FSNode.file 30)])])]) ∧
    ValidSched (fun _ l => l) ∧
    (build_cache_parallel (FSNode.dir [("f1", FSNode.file 10),
      ("b", FSNode.dir [("f2", FSNode.file 20),
        ("c", FSNode.dir [("f3", FSNode.file 30)])])])
      (fun _ => false) (fun _ l => l) 4).2 = [] ∧
    ("/b/f2", 20) ∈ (build_cache_parallel (FSNode.dir [("f1", FSNode.file 10),
      ("b", FSNode.dir [("f2", FSNode.file 20),
        ("c", FSNode.dir [("f3", FSNode.file 30)])])])
      (fun _ => false) (fun _ l => l) 4).1 := by
  have hw3 : Wf (FSNode.dir [("f3", FSNode.file 30)]) := by
    refine Wf.dir _ ⟨by decide, by decide⟩ ?_
    intro e he
    have he2 : e = ("f3", FSNode.file 30) := by simpa using he
    subst he2
    exact Wf.file 30
  have hw2 : Wf (FSNode.dir [("f2", FSNode.file 20),
      ("c", FSNode.dir [("f3", FSNode.file 30)])]) := by
    refine Wf.dir _ ⟨by decide, by decide⟩ ?_
    intro e he
    rcases (by simpa using he :
        e = ("f2", FSNode.file 20) ∨
        e = ("c", FSNode.dir [("f3", FSNode.file 30)])) with he2 | he2
    · subst he2; exact Wf.file 20
    · subst he2; exact hw3
  have hwf : Wf (FSNode.dir [("f1", FSNode.file 10),
      ("b", FSNode.dir [("f2", FSNode.file 20),
        ("c", FSNode.dir [("f3", FSNode.file 30)])])]) := by
    refine Wf.dir _ ⟨by decide, by decide⟩ ?_
    intro e he
    rcases (by simpa using he :
        e = ("f1", FSNode.file 10) ∨
        e = ("b", FSNode.dir [("f2", FSNode.file 20),
          ("c", FSNode.dir [("f3", FSNode.file 30)])])) with he2 | he2
    · subst he2; exact Wf.file 10
    · subst he2; exact hw2
  have hs : ValidSched (fun _ l => l) := fun _ _ => List.Perm.refl _
  have hdone : (build_cache_parallel (FSNode.dir [("f1", FSNode.file 10),
      ("b", FSNode.dir [("f2", FSNode.file 20),
        ("c", FSNode.dir [("f3", FSNode.file 30)])])])
      (fun _ => false) (fun _ l => l) 4).2 = [] := by decide
  refine ⟨hwf, hs, hdone, ?_⟩
  exact ((claim_C3_index_completeness _ _ 4 hwf hs hdone).1 "/b/f2" 20).mpr
    ⟨["b", "f2"], by simp, rfl, rfl⟩

/-- C7: if listing some directories raises during a build while others
list successfully, each failed path contributes nothing to the index
(a record appears iff its file's ancestor chain contains no failing
directory), and a build with sufficient fuel still completes — the
frontier loop exhausts its frontier — after which
`start_background_caching` reaches the Ready state (`is_cached`). -/
theorem claim_C7_partial_failure_containment
    (es_root : List (String × FSNode)) (bad : String → Bool)
    (sched : Nat → List String → List String)
    (hwf : Wf (.dir es_root)) (hs : ValidSched sched) :
    ∃ fuel,
      (build_cache_parallel (.dir es_root) bad sched fuel).2 = [] ∧
      (start_background_caching ⟨true, false, false, [], true⟩
        (.ok (build_cache_parallel (.dir es_root) bad sched
          fuel).1)).1.is_cached = true ∧
      (∀ p sz,
        (p, sz) ∈ (build_cache_parallel (.dir es_root) bad sched fuel).1 ↔
        ∃ segs, segs ≠ [] ∧ p = pathOf segs ∧ fileAt (.dir es_root) segs sz ∧
          goodChain bad segs) := by
  have hinv := initial_inv es_root bad
  have hdone : (build_cache_parallel (.dir es_root) bad sched
      (sizeOf (FSNode.dir es_root) + 1)).2 = [] := by
    refine buildLoop_complete hwf hs (sizeOf (FSNode.dir es_root)) _ 0 ["/"]
      hinv ?_ (le_refl _)
    intro p hp f es hpeq hvf hres
    have hp2 : p = "/" := by simpa using hp
    subst hp2
    have hf : f = [] := by
      refine pathOf_inj hvf (fun x hx => absurd hx (List.not_mem_nil x)) ?_
      exact hpeq.symm
    subst hf
    have h2 : some (FSNode.dir es_root) = some (FSNode.dir es) := hres
    have h3 : es_root = es := by
      cases h2
      rfl
    subst h3
    exact le_refl _
  refine ⟨sizeOf (FSNode.dir es_root) + 1, hdone, rfl, ?_⟩
  simp only [build_cache_parallel] at hdone ⊢
  have hfwd := buildLoop_fwd hwf hs (sizeOf (FSNode.dir es_root) + 1) 0 ["/"]
    hinv
  intro p sz
  constructor
  · intro hmem
    obtain ⟨segs, sz2, hl, _, hg, hf, he⟩ := hfwd.1 (p, sz) hmem
    have hp : p = pathOf segs := congrArg Prod.fst he
    have hsz : sz = sz2 := congrArg Prod.snd he
    refine ⟨segs, List.length_pos.mp hl, hp, ?_, hg⟩
    rw [hsz]; exact hf
  · rintro ⟨segs, hne, rfl, hfile, hchain⟩
    have hbwd := buildLoop_bwd hwf hs (sizeOf (FSNode.dir es_root) + 1) 0 ["/"]
      hinv hdone [] segs sz (by simp [pathOf]) rfl
      (fun x hx => absurd hx (List.not_mem_nil x)) hne (by simpa using hfile)
      (by
        intro k _ hk
        simp only [List.nil_append] at hk ⊢
        exact hchain k hk)
    simpa using hbwd

/-- Witness for C7: the spec's example — listing `/b` raises while `/`
and `/c` succeed — still completes, reaches Ready, and indexes exactly
the files under the successful paths (`/f1`, `/c/f3`) with nothing
under `/b`. -/
theorem claim_C7_witness :
    Wf (FSNode.dir [("f1", FSNode.file 1),
      ("b", FSNode.dir [("f2", FSNode.file 2)]),
      ("c", FSNode.dir [("f3", FSNode.file 3)])]) ∧
    ValidSched (fun _ l => l) ∧
    (∃ fuel,
      (build_cache_parallel (FSNode.dir [("f1", FSNode.file 1),
        ("b", FSNode.dir [("f2", FSNode.file 2)]),
        ("c", FSNode.dir [("f3", FSNode.file 3)])])
        (fun p => p == "/b") (fun _ l => l) fuel).2 = [] ∧
      (start_background_caching ⟨true, false, false, [], true⟩
        (.ok (build_cache_parallel (FSNode.dir [("f1", FSNode.file 1),
          ("b", FSNode.dir [("f2", FSNode.file 2)]),
          ("c", FSNode.dir [("f3", FSNode.file 3)])])
          (fun p => p == "/b") (fun _ l => l) fuel).1)).1.is_cached = true ∧
      (∀ p sz,
        (p, sz) ∈ (build_cache_parallel (FSNode.dir [("f1", FSNode.file 1),
          ("b", FSNode.dir [("f2", FSNode.file 2)]),
          ("c", FSNode.dir [("f3", FSNode.file 3)])])
          (fun p => p == "/b") (fun _ l => l) fuel).1 ↔
        ∃ segs, segs ≠ [] ∧ p = pathOf segs ∧
          fileAt (FSNode.dir [("f1", FSNode.file 1),
            ("b", FSNode.dir [("f2", FSNode.file 2)]),
            ("c", FSNode.dir [("f3", FSNode.file 3)])]) segs sz ∧
          goodChain (fun p => p == "/b") segs)) ∧
    (build_cache_parallel (FSNode.dir [("f1", FSNode.file 1),
      ("b", FSNode.dir [("f2", FSNode.file 2)]),
      ("c", FSNode.dir [("f3", FSNode.file 3)])])
      (fun p => p == "/b") (fun _ l => l) 4).1 = [("/f1", 1), ("/c/f3", 3)] := by
  have hwb : Wf (FSNode.dir [("f2", FSNode.file 2)]) := by
    refine Wf.dir _ ⟨by decide, by decide⟩ ?_
    intro e he
    have he2 : e = ("f2", FSNode.file 2) := by simpa using he
    subst he2
    exact Wf.file 2
  have hwc : Wf (FSNode.dir [("f3", FSNode.file 3)]) := by
    refine Wf.dir _ ⟨by decide, by decide⟩ ?_
    intro e he
    have he2 : e = ("f3", FSNode.file 3) := by simpa using he
    subst he2
    exact Wf.file 3
  have hwf : Wf (FSNode.dir [("f1", FSNode.file 1),
      ("b", FSNode.dir [("f2", FSNode.file 2)]),
      ("c", FSNode.dir [("f3", FSNode.file 3)])]) := by
    refine Wf.dir _ ⟨by decide, by decide⟩ ?_
    intro e he
    rcases (by simpa using he :
        e = ("f1", FSNode.file 1) ∨
        e = ("b", FSNode.dir [("f2", FSNode.file 2)]) ∨
        e = ("c", FSNode.dir [("f3", FSNode.file 3)])) with he2 | he2 | he2
    · subst he2; exact Wf.file 1
    · subst he2; exact hwb
    · subst he2; exact hwc
  have hs : ValidSched (fun _ l => l) := fun _ _ => List.Perm.refl _
  exact ⟨hwf, hs,
    claim_C7_partial_failure_containment _ _ _ hwf hs, by decide⟩

end SMBModel
